import Mathlib

/-!
Verification of the sortify upload-session manager and media organizer
(backend/internal/upload/manager.go, backend/internal/media/organizer.go).

Shallow embedding conventions:
* Go `int64`/`int` values are modeled as `Int` (all quantities reached by the
  claims stay far below 2^63: file sizes are bounded by what the filesystem can
  pre-allocate, chunk counters by the number of distinct files in a directory,
  so two's-complement wrap-around is never observable).
* The temp file on disk is carried inside the session as its byte contents
  (`List Nat`); `os.Create`+`Truncate(size)` yields `size` zero bytes, and a
  positional `Seek`+`Write` is `writeAt` below.
* SHA-256 (`crypto/sha256` — an external library) is an abstract parameter
  `h : List Nat → String`; the manager only ever compares its hex output for
  equality, so every theorem quantifies over `h`.
* `time.Now()` timestamps stored in `CreatedAt`/`UpdatedAt` are not modeled
  (no claim mentions them); the mutex serializes operations, so the manager is
  modeled as a sequential state machine over an association list that mirrors
  the Go `map[string]*models.UploadSession`.
* Operations return `(post-state, error?)`; the Go methods mutate the session
  in place, and every error return in `manager.go` happens before the first
  mutation of that operation, which the definitions below reproduce literally.
-/

namespace Sortify

/-- models.UploadStatus (models/upload.go). -/
inductive UploadStatus where
  | initialized
  | uploading
  | paused
  | completed
  | failed
  | cancelled
deriving DecidableEq

/-- models.UploadSession. `tempFile` is the byte contents of the file at
`TempPath`; `CreatedAt`/`UpdatedAt`/`Metadata`/`ID`/`TempPath` carry no
claim-relevant information and are left out. -/
structure UploadSession where
  fileName : String
  fileSize : Int
  chunkSize : Int
  totalChunks : Int
  uploadedSize : Int
  checksum : String
  tempFile : List Nat
  status : UploadStatus
deriving DecidableEq

/-- The error cases of upload.Manager, tagged by the fmt.Errorf message. -/
inductive UploadError where
  | capacityExceeded
  | notFound
  | checksumMismatch
  | sizeMismatch
  | ioError
  | invalidState
deriving DecidableEq

/-- models.StartUploadRequest (metadata omitted). -/
structure StartUploadRequest where
  fileName : String
  fileSize : Int
  chunkSize : Int
  checksum : String
deriving DecidableEq

/-- upload.Manager: the session map (association list keyed by session ID)
plus the configured maximum concurrent-session count. -/
structure Manager where
  sessions : List (String × UploadSession)
  maxSessions : Nat
deriving DecidableEq

/-- NewManager: empty session map. -/
def Manager.init (maxSessions : Nat) : Manager :=
  ⟨[], maxSessions⟩

/-- Go map assignment `m.sessions[id] = s`: replace an existing binding,
otherwise add one. -/
def mapInsert (l : List (String × UploadSession)) (id : String) (s : UploadSession) :
    List (String × UploadSession) :=
  if (l.lookup id).isSome then
    l.map (fun p => if p.1 = id then (id, s) else p)
  else
    l ++ [(id, s)]

/-- In-place mutation of the session found under `id` (the Go code mutates the
session through the pointer stored in the map). -/
def mapUpdate (l : List (String × UploadSession)) (id : String) (s : UploadSession) :
    List (String × UploadSession) :=
  l.map (fun p => if p.1 = id then (id, s) else p)

/-- Positional file write (Seek to `offset`, Write `data`): bytes before the
offset are kept, a seek past the end leaves a zero-filled hole, and a write
past the end extends the file. -/
def writeAt (file : List Nat) (offset : Nat) (data : List Nat) : List Nat :=
  (file.take offset ++ List.replicate (offset - file.length) 0)
    ++ data ++ file.drop (offset + data.length)

/-- The session value built by CreateSession: totalChunks is the Go expression
`(req.FileSize + req.ChunkSize - 1) / req.ChunkSize` (the division is only
reached with positive operands, fileSize > 0 and chunkSize > 0 as validated
and defaulted by the HTTP handler, where Go's truncating int64 division and
Lean's `Int` division agree), and the temp file is pre-allocated to
`fileSize` zero bytes by os.Create + Truncate. -/
def newSession (req : StartUploadRequest) : UploadSession :=
  { fileName := req.fileName
    fileSize := req.fileSize
    chunkSize := req.chunkSize
    totalChunks := (req.fileSize + req.chunkSize - 1) / req.chunkSize
    uploadedSize := 0
    checksum := req.checksum
    tempFile := List.replicate req.fileSize.toNat 0
    status := .initialized }

/-- Manager.CreateSession (manager.go:32-75). The fresh session ID produced by
generateSessionID is passed in as `sessionID`; I/O errors of os.Create and
Truncate are not modeled. -/
def createSession (m : Manager) (sessionID : String) (req : StartUploadRequest) :
    Manager × Except UploadError UploadSession :=
  if m.sessions.length ≥ m.maxSessions then
    (m, .error .capacityExceeded)
  else
    (⟨mapInsert m.sessions sessionID (newSession req), m.maxSessions⟩, .ok (newSession req))

/-- Manager.UploadChunk (manager.go:89-125), parameterized by the SHA-256 hex
digest `h`. The checksum guard precedes every mutation; `file.Seek` fails on a
negative offset (negative chunk number), which is the only modeled I/O error. -/
def uploadChunk (h : List Nat → String) (m : Manager) (sessionID : String)
    (chunkNumber : Int) (chunkData : List Nat) (expectedChecksum : String) :
    Manager × Option UploadError :=
  match m.sessions.lookup sessionID with
  | none => (m, some .notFound)
  | some session =>
    if expectedChecksum ≠ "" ∧ h chunkData ≠ expectedChecksum then
      (m, some .checksumMismatch)
    else
      if chunkNumber * session.chunkSize < 0 then
        (m, some .ioError)
      else
        (⟨mapUpdate m.sessions sessionID
            { session with
              tempFile := writeAt session.tempFile (chunkNumber * session.chunkSize).toNat chunkData
              uploadedSize := session.uploadedSize + chunkData.length
              status := .uploading },
          m.maxSessions⟩, none)

/-- Manager.CompleteUpload (manager.go:127-160). The whole-file digest is
`h session.tempFile`; a completion-time checksum takes precedence over the one
stored at creation. -/
def completeUpload (h : List Nat → String) (m : Manager) (sessionID : String)
    (expectedChecksum : String) : Manager × Option UploadError :=
  match m.sessions.lookup sessionID with
  | none => (m, some .notFound)
  | some session =>
    if session.uploadedSize ≠ session.fileSize then
      (m, some .sizeMismatch)
    else
      if expectedChecksum ≠ "" ∨ session.checksum ≠ "" then
        if (if expectedChecksum = "" then session.checksum else expectedChecksum) ≠ "" ∧
            h session.tempFile ≠ (if expectedChecksum = "" then session.checksum else expectedChecksum) then
          (m, some .checksumMismatch)
        else
          (⟨mapUpdate m.sessions sessionID { session with status := .completed }, m.maxSessions⟩,
            none)
      else
        (⟨mapUpdate m.sessions sessionID { session with status := .completed }, m.maxSessions⟩,
          none)

/-- Manager.PauseUpload (manager.go:193-206): unconditional. -/
def pauseUpload (m : Manager) (sessionID : String) : Manager × Option UploadError :=
  match m.sessions.lookup sessionID with
  | none => (m, some .notFound)
  | some session =>
    (⟨mapUpdate m.sessions sessionID { session with status := .paused }, m.maxSessions⟩, none)

/-- Manager.ResumeUpload (manager.go:208-225). -/
def resumeUpload (m : Manager) (sessionID : String) : Manager × Option UploadError :=
  match m.sessions.lookup sessionID with
  | none => (m, some .notFound)
  | some session =>
    if session.status ≠ .paused then
      (m, some .invalidState)
    else
      (⟨mapUpdate m.sessions sessionID { session with status := .uploading }, m.maxSessions⟩, none)

/-- Manager.CancelUpload (manager.go:227-244): removes the temp file and drops
the session from the map. -/
def cancelUpload (m : Manager) (sessionID : String) : Manager × Option UploadError :=
  match m.sessions.lookup sessionID with
  | none => (m, some .notFound)
  | some _ =>
    (⟨m.sessions.filter (fun p => p.1 ≠ sessionID), m.maxSessions⟩, none)

/-- Manager.CleanupSession (manager.go:262-276). -/
def cleanupSession (m : Manager) (sessionID : String) : Manager × Option UploadError :=
  match m.sessions.lookup sessionID with
  | none => (m, some .notFound)
  | some _ =>
    (⟨m.sessions.filter (fun p => p.1 ≠ sessionID), m.maxSessions⟩, none)

/-- One manager API call, for reasoning about arbitrary call sequences. -/
inductive MgrOp where
  | create (sessionID : String) (req : StartUploadRequest)
  | upload (sessionID : String) (chunkNumber : Int) (chunkData : List Nat) (expectedChecksum : String)
  | complete (sessionID : String) (expectedChecksum : String)
  | pause (sessionID : String)
  | resume (sessionID : String)
  | cancel (sessionID : String)
  | cleanup (sessionID : String)

/-- Apply one call to the manager state (the error result is dropped: callers
of the HTTP handlers observe it, the manager state does not depend on it). -/
def applyOp (h : List Nat → String) (m : Manager) : MgrOp → Manager
  | .create id req => (createSession m id req).1
  | .upload id n data exp => (uploadChunk h m id n data exp).1
  | .complete id exp => (completeUpload h m id exp).1
  | .pause id => (pauseUpload m id).1
  | .resume id => (resumeUpload m id).1
  | .cancel id => (cancelUpload m id).1
  | .cleanup id => (cleanupSession m id).1

/-- Run a sequence of manager calls. -/
def runOps (h : List Nat → String) (m : Manager) : List MgrOp → Manager
  | [] => m
  | op :: ops => runOps h (applyOp h m op) ops

/-!
Media organizer (backend/internal/media/organizer.go). Go strings are modeled
as `List Char` (one `Char` per rune; Go's `len`/slicing count bytes, which
agrees with the rune count on ASCII data — every concrete input below is
ASCII). The filesystem visible to one `OrganizeFile` call is the listing of
the target month directory: a list of (file name, byte contents) pairs; the
`os.Stat` existence probe is a boolean oracle on names.
-/

/-- Decimal digit character, `fmt` style: `digitChar 7 = '7'` for `n < 10`. -/
def digitChar (n : Nat) : Char := Char.ofNat (48 + n)

/-- Fuel-driven decimal rendering; `fuel > n` always suffices because the
recursion divides `n` by ten. -/
def decimalAux : Nat → Nat → List Char
  | 0, _ => []
  | fuel + 1, n =>
    if n < 10 then [digitChar n] else decimalAux fuel (n / 10) ++ [digitChar (n % 10)]

/-- Decimal rendering of a natural, i.e. Go `fmt.Sprintf` with verb `%d` on a
non-negative value. -/
def decimalStr (n : Nat) : List Char := decimalAux (n + 1) n

/-- Go `time.Time` at day granularity: the organizer only compares capture
dates against the 1990-01-01 era boundary and `now` plus one year, and formats
year and month, so hours and finer resolution are irrelevant to every claim. -/
structure GoDate where
  year : Int
  month : Nat
  day : Nat
deriving DecidableEq

/-- time.Time.Before: lexicographic on (year, month, day). -/
def GoDate.before (a b : GoDate) : Bool :=
  a.year < b.year ||
    (a.year == b.year && (a.month < b.month || (a.month == b.month && a.day < b.day)))

/-- time.Time.After. -/
def GoDate.after (a b : GoDate) : Bool := GoDate.before b a

/-- time.Time.AddDate(n, 0, 0). Go normalizes Feb 29 to Mar 1 when the target
year is not a leap year; no claim exercises that boundary, so the year is
simply incremented. -/
def addYears (d : GoDate) (n : Int) : GoDate := { d with year := d.year + n }

/-- The era boundary used by Organizer.validateDate (organizer.go:576). -/
def minDate : GoDate := ⟨1990, 1, 1⟩

/-- Organizer.validateDate (organizer.go:569-590): a nil date, a date before
1990-01-01, or a date after now+1year is replaced by the current time. -/
def validateDate (now : GoDate) : Option GoDate → GoDate
  | none => now
  | some d => if d.before minDate || d.after (addYears now 1) then now else d

/-- Go `Format("2006")`: the year zero-padded to four digits (all validated
years are non-negative). -/
def padYear4 (n : Nat) : List Char :=
  let ds := decimalStr n
  List.replicate (4 - ds.length) '0' ++ ds

/-- Year component of the target directory. -/
def formatYear (y : Int) : String := String.mk (padYear4 y.toNat)

/-- Go `Format("January")`: full English month name (months outside 1..12 do
not arise from real times). -/
def monthName : Nat → String
  | 1 => "January"
  | 2 => "February"
  | 3 => "March"
  | 4 => "April"
  | 5 => "May"
  | 6 => "June"
  | 7 => "July"
  | 8 => "August"
  | 9 => "September"
  | 10 => "October"
  | 11 => "November"
  | 12 => "December"
  | _ => ""

/-- Organizer.getTargetDirectory (organizer.go:474-483): validate the date,
then join mediaPath, the 4-digit year and the full month name
(`filepath.Join` on clean non-empty components inserts one separator). -/
def getTargetDirectory (mediaPath : String) (now : GoDate) (dateTaken : Option GoDate) : String :=
  let v := validateDate now dateTaken
  mediaPath ++ "/" ++ formatYear v.year ++ "/" ++ monthName v.month

/-- filepath.Ext and the stem `strings.TrimSuffix(filename, ext)`: split at
the last dot; the extension includes the dot, and is empty when the name has
no dot. -/
def splitExt (cs : List Char) : List Char × List Char :=
  match cs.reverse.findIdx? (fun c => c = '.') with
  | none => (cs, [])
  | some k =>
    let pos := cs.length - 1 - k
    (cs.take pos, cs.drop pos)

/-- The conflict-resolution candidate `fmt.Sprintf` with the pattern
stem(counter)ext (organizer.go:407). -/
def candidateName (stem ext : List Char) (k : Nat) : List Char :=
  stem ++ ['('] ++ decimalStr k ++ [')'] ++ ext

/-- The `for { counter++ }` loop of Organizer.handleDuplicates
(organizer.go:405-414). The Go loop has no bound; `fuel` only makes the
recursion well-founded, and `none` means the Go loop is still running after
`fuel` probes. -/
def probeName (stat : List Char → Bool) (stem ext : List Char) : Nat → Nat → Option (List Char)
  | 0, _ => none
  | fuel + 1, counter =>
    let cand := candidateName stem ext counter
    if stat cand then probeName stat stem ext fuel (counter + 1) else some cand

/-- Organizer.handleDuplicates (organizer.go:395-415): keep the name when it
is unused, otherwise probe stem(1)ext, stem(2)ext, ... without bound. `stat`
is the os.Stat existence oracle for names inside the target directory. -/
def handleDuplicates (stat : List Char → Bool) (fileName : List Char) (fuel : Nat) :
    Option (List Char) :=
  if stat fileName then
    probeName stat (splitExt fileName).1 (splitExt fileName).2 fuel 1
  else some fileName

/-- The bounded loop of Organizer.getFinalPath (organizer.go:497-504):
`for i := 1; i < 1000; i++` gives 999 probes, after which the timestamp
fallback name stem_timestamp-ext is returned. -/
def getFinalPathLoop (stat : List Char → Bool) (stem ext : List Char) (timestamp : Nat) :
    Nat → Nat → List Char
  | 0, _ => stem ++ ['_'] ++ decimalStr timestamp ++ ext
  | fuel + 1, i =>
    let cand := candidateName stem ext i
    if stat cand then getFinalPathLoop stat stem ext timestamp fuel (i + 1) else cand

/-- Organizer.getFinalPath (organizer.go:485-509): the bounded variant of name
resolution with a timestamp fallback. OrganizeFile does not call it (it calls
handleDuplicates); it is embedded because claim C7 describes its behavior. -/
def getFinalPath (stat : List Char → Bool) (timestamp : Nat) (fileName : List Char) :
    List Char :=
  if stat fileName then
    getFinalPathLoop stat (splitExt fileName).1 (splitExt fileName).2 timestamp 999 1
  else fileName

/-- The characters replaced by underscore in Organizer.sanitizeFileName
(organizer.go:519-529): slash, backslash, colon, asterisk, question mark,
double quote, angle brackets, pipe. -/
def unsafeChars : List Char := ['/', '\x5c', ':', '*', '?', '\x22', '<', '>', '|']

/-- One character of the strings.ReplaceAll cascade: each unsafe character is
independently replaced by an underscore, so the map order is irrelevant. -/
def replaceUnsafe (c : Char) : Char := if unsafeChars.contains c then '_' else c

/-- unicode.IsControl (Unicode category Cc: U+0000..U+001F and
U+007F..U+009F); the Go code's extra `r == 0` test is subsumed. -/
def isCtrl (c : Char) : Bool :=
  c.toNat ≤ 0x1f || (0x7f ≤ c.toNat && c.toNat ≤ 0x9f)

/-- The cutset of `strings.Trim(result, " .")`. -/
def trimChar (c : Char) : Bool := c == ' ' || c == '.'

/-- strings.Trim: drop cutset characters from both ends. -/
def trimEnds (cs : List Char) : List Char :=
  ((cs.dropWhile trimChar).reverse.dropWhile trimChar).reverse

/-- The placeholder name for inputs that sanitize to nothing. -/
def untitled : List Char := ['u', 'n', 't', 'i', 't', 'l', 'e', 'd']

/-- The tail of Organizer.sanitizeFileName (organizer.go:550-565) applied to
the replaced, control-stripped and trimmed name: the untitled fallback and
the length cap, rendered at rune level (one Char per rune). Go counts and
slices bytes here, which coincides with rune counts exactly on ASCII names;
this rune-level rendering only feeds the organizeFile model, whose claims do
not depend on the resolved name. The byte-accurate embedding of the same code
is sanitizeCoreBytes below. The Go slice `nameWithoutExt[:200-len(ext)]`
computes its bound in int arithmetic and panics when `200 - len(ext)` is
negative (extension longer than 200 bytes on an over-long name); the panic is
`none`. -/
def sanitizeCore (trimmed : List Char) : Option (List Char) :=
  if trimmed = [] then some untitled
  else if trimmed.length > 200 then
    if ((splitExt trimmed).1.length : Int) > 200 - ((splitExt trimmed).2.length : Int) then
      if (200 : Int) - ((splitExt trimmed).2.length : Int) < 0 then none
      else some ((splitExt trimmed).1.take
          ((200 : Int) - ((splitExt trimmed).2.length : Int)).toNat ++ (splitExt trimmed).2)
    else some ((splitExt trimmed).1 ++ (splitExt trimmed).2)
  else some trimmed

/-- Organizer.sanitizeFileName (organizer.go:512-566) at rune level:
empty-name fallback, unsafe-character replacement, control-character removal,
trimming of spaces and dots at both ends, then the untitled fallback and
length cap of sanitizeCore. This rendering agrees with the Go function
exactly on ASCII names and is used only inside the organizeFile model, whose
claims are independent of the resolved name; sanitizeFileNameBytes below is
the byte-accurate embedding used to settle the sanitizer claim itself. -/
def sanitizeFileName (fileName : List Char) : Option (List Char) :=
  if fileName = [] then some untitled
  else sanitizeCore (trimEnds ((fileName.map replaceUnsafe).filter (fun c => !(isCtrl c))))

/-!
Byte-level embedding of Organizer.sanitizeFileName. A Go string is a byte
sequence: `len`, slicing and `strings.ReplaceAll`/`strings.Trim` with ASCII
arguments work on bytes, while the control-character loop
`for _, r := range result` decodes UTF-8 runes (malformed bytes decode to
U+FFFD) and `WriteRune` re-encodes every kept rune. The model below carries
the name as `List Nat` of bytes and reproduces exactly that.
-/

/-- utf8.DecodeRune (Go unicode/utf8): the first rune of `b0 :: rest` and the
number of bytes it occupies. Malformed or truncated input yields
(U+FFFD, 1). Accept ranges follow Go's table: the second byte of an E0/ED/F0/
F4 sequence is restricted to exclude overlong encodings, surrogates and
values beyond U+10FFFF. -/
def decodeRune (b0 : Nat) (rest : List Nat) : Nat × Nat :=
  if b0 < 0x80 then (b0, 1)
  else if 0xc2 ≤ b0 ∧ b0 ≤ 0xdf then
    match rest with
    | b1 :: _ =>
      if 0x80 ≤ b1 ∧ b1 ≤ 0xbf then ((b0 - 0xc0) * 64 + (b1 - 0x80), 2)
      else (0xfffd, 1)
    | [] => (0xfffd, 1)
  else if 0xe0 ≤ b0 ∧ b0 ≤ 0xef then
    match rest with
    | b1 :: b2 :: _ =>
      if (if b0 = 0xe0 then 0xa0 ≤ b1 ∧ b1 ≤ 0xbf
          else if b0 = 0xed then 0x80 ≤ b1 ∧ b1 ≤ 0x9f
          else 0x80 ≤ b1 ∧ b1 ≤ 0xbf) ∧ (0x80 ≤ b2 ∧ b2 ≤ 0xbf) then
        ((b0 - 0xe0) * 4096 + (b1 - 0x80) * 64 + (b2 - 0x80), 3)
      else (0xfffd, 1)
    | _ => (0xfffd, 1)
  else if 0xf0 ≤ b0 ∧ b0 ≤ 0xf4 then
    match rest with
    | b1 :: b2 :: b3 :: _ =>
      if (if b0 = 0xf0 then 0x90 ≤ b1 ∧ b1 ≤ 0xbf
          else if b0 = 0xf4 then 0x80 ≤ b1 ∧ b1 ≤ 0x8f
          else 0x80 ≤ b1 ∧ b1 ≤ 0xbf) ∧ (0x80 ≤ b2 ∧ b2 ≤ 0xbf) ∧ (0x80 ≤ b3 ∧ b3 ≤ 0xbf) then
        ((b0 - 0xf0) * 262144 + (b1 - 0x80) * 4096 + (b2 - 0x80) * 64 + (b3 - 0x80), 4)
      else (0xfffd, 1)
    | _ => (0xfffd, 1)
  else (0xfffd, 1)

/-- UTF-8 encoding of one rune, as written by strings.Builder.WriteRune (the
runes fed to it come from decodeRune, so they are never surrogates and never
exceed U+10FFFF; U+FFFD encodes as EF BF BD). -/
def encodeRune (r : Nat) : List Nat :=
  if r < 0x80 then [r]
  else if r < 0x800 then [0xc0 + r / 64, 0x80 + r % 64]
  else if r < 0x10000 then [0xe0 + r / 4096, 0x80 + (r / 64) % 64, 0x80 + r % 64]
  else [0xf0 + r / 262144, 0x80 + (r / 4096) % 64, 0x80 + (r / 64) % 64, 0x80 + r % 64]

/-- unicode.IsControl on a rune value (category Cc: U+0000..U+001F and
U+007F..U+009F); the Go code's extra `r == 0` test is subsumed. -/
def isCtrlRune (r : Nat) : Bool :=
  r ≤ 0x1f || (0x7f ≤ r && r ≤ 0x9f)

/-- The control-stripping loop of sanitizeFileName (organizer.go:537-545) on
bytes: decode each rune, skip control runes, re-encode every kept rune (so a
malformed byte comes out as the three bytes of U+FFFD). The fuel equals the
byte count, which the recursion consumes at one byte or more per rune. -/
def cleanBytesAux : Nat → List Nat → List Nat
  | 0, _ => []
  | _, [] => []
  | fuel + 1, b :: rest =>
    if isCtrlRune (decodeRune b rest).1 then
      cleanBytesAux fuel (rest.drop ((decodeRune b rest).2 - 1))
    else
      encodeRune (decodeRune b rest).1 ++ cleanBytesAux fuel (rest.drop ((decodeRune b rest).2 - 1))

/-- Rune-wise control stripping of a byte string. -/
def cleanBytes (l : List Nat) : List Nat := cleanBytesAux l.length l

/-- The bytes replaced by underscore (organizer.go:519-529): slash,
backslash, colon, asterisk, question mark, double quote, angle brackets,
pipe — all single ASCII bytes, and no such byte can occur inside a
multi-byte UTF-8 sequence, so strings.ReplaceAll is a byte map. -/
def unsafeBytes : List Nat := [0x2f, 0x5c, 0x3a, 0x2a, 0x3f, 0x22, 0x3c, 0x3e, 0x7c]

/-- One byte of the strings.ReplaceAll cascade. -/
def replaceByte (b : Nat) : Nat := if unsafeBytes.contains b then 0x5f else b

/-- The cutset bytes of `strings.Trim(result, " .")` (space and dot; both
ASCII, so rune-wise trimming equals byte-wise trimming — a UTF-8
continuation or lead byte never matches the cutset). -/
def trimByte (b : Nat) : Bool := b == 0x20 || b == 0x2e

/-- strings.Trim on bytes: drop cutset bytes from both ends. -/
def trimEndsBytes (l : List Nat) : List Nat :=
  ((l.dropWhile trimByte).reverse.dropWhile trimByte).reverse

/-- The placeholder name untitled as bytes. -/
def untitledBytes : List Nat := [0x75, 0x6e, 0x74, 0x69, 0x74, 0x6c, 0x65, 0x64]

/-- filepath.Ext on bytes: split at the last dot byte (0x2E cannot occur
inside a multi-byte UTF-8 sequence). -/
def splitExtBytes (cs : List Nat) : List Nat × List Nat :=
  match cs.reverse.findIdx? (fun b => b = 0x2e) with
  | none => (cs, [])
  | some k => (cs.take (cs.length - 1 - k), cs.drop (cs.length - 1 - k))

/-- The tail of Organizer.sanitizeFileName (organizer.go:550-565) on bytes:
untitled fallback and the 200-byte length cap. `len(result) > 200` counts
bytes and `nameWithoutExt[:200-len(ext)]` slices bytes (possibly splitting a
multi-byte rune); the slice bound is Go int arithmetic and panics (`none`)
when `200 - len(ext)` is negative. -/
def sanitizeCoreBytes (trimmed : List Nat) : Option (List Nat) :=
  if trimmed = [] then some untitledBytes
  else if trimmed.length > 200 then
    if ((splitExtBytes trimmed).1.length : Int) > 200 - ((splitExtBytes trimmed).2.length : Int) then
      if (200 : Int) - ((splitExtBytes trimmed).2.length : Int) < 0 then none
      else some ((splitExtBytes trimmed).1.take
          ((200 : Int) - ((splitExtBytes trimmed).2.length : Int)).toNat ++ (splitExtBytes trimmed).2)
    else some ((splitExtBytes trimmed).1 ++ (splitExtBytes trimmed).2)
  else some trimmed

/-- Organizer.sanitizeFileName (organizer.go:512-566) on bytes: empty-name
fallback, unsafe-byte replacement, the rune-decoding control-strip loop,
byte trimming of spaces and dots, then the untitled fallback and the
200-byte cap of sanitizeCoreBytes. -/
def sanitizeFileNameBytes (fileName : List Nat) : Option (List Nat) :=
  if fileName = [] then some untitledBytes
  else sanitizeCoreBytes (trimEndsBytes (cleanBytes (fileName.map replaceByte)))

/-- The name a followed by one hundred times the letter e-acute (U+00E9,
bytes C3 A9): 101 runes but 201 bytes. -/
def nonAsciiLongName : List Nat := 0x61 :: (List.replicate 100 [0xc3, 0xa9]).join

/-- What the 200-byte cap makes of nonAsciiLongName: the final two-byte rune
is split, leaving a dangling lead byte C3. -/
def nonAsciiTruncated : List Nat := 0x61 :: ((List.replicate 99 [0xc3, 0xa9]).join ++ [0xc3])

/-- Organizer.checkDuplicate (organizer.go:417-457) restricted to its
observable effect: hash the incoming bytes and walk the target month
directory comparing hashes (`dir` is the directory listing; the walk visits
files in listing order, and per-file hash errors are not modeled). -/
def checkDuplicate (h : List Nat → String) (dir : List (List Char × List Nat))
    (content : List Nat) : Bool :=
  dir.any (fun e => h e.2 == h content)

/-- Result of one OrganizeFile call: the directory listing afterwards, whether
the temp file is gone (deleted or moved), and whether the duplicate path was
taken. -/
structure OrganizeOutcome where
  dir : List (List Char × List Nat)
  tempRemoved : Bool
  duplicate : Bool
deriving DecidableEq

/-- Organizer.OrganizeFile (organizer.go:335-393) after metadata extraction,
acting on the target month directory chosen by getTargetDirectory: check for a
byte-identical duplicate (delete the temp file and stop if found), sanitize
the original file name, resolve conflicts with handleDuplicates, then move the
temp file to the final name. `none` models a sanitizer panic or exhausted
probe fuel; the duplicate branch returns the extracted metadata unchanged and
with a nil error in the Go code. -/
def organizeFile (h : List Nat → String) (fuel : Nat) (dir : List (List Char × List Nat))
    (tempContent : List Nat) (originalFileName : List Char) : Option OrganizeOutcome :=
  if checkDuplicate h dir tempContent then
    some ⟨dir, true, true⟩
  else
    match sanitizeFileName originalFileName with
    | none => none
    | some name =>
      match handleDuplicates (fun s => dir.any (fun e => e.1 == s)) name fuel with
      | none => none
      | some finalName => some ⟨dir ++ [(finalName, tempContent)], true, false⟩

/-- media.MediaFileInfo restricted to the fields the scan ordering reads:
capture date (when extraction produced one) and file modification time, both
as linear timestamps. -/
structure MediaFileInfo where
  fileName : String
  dateTaken : Option Int
  modTime : Int
deriving DecidableEq

/-- The effective sort key of Organizer.sortFiles: DateTaken when present,
otherwise ModTime. -/
def effTime (f : MediaFileInfo) : Int :=
  match f.dateTaken with
  | some t => t
  | none => f.modTime

/-- The inner loop of Organizer.sortFiles (organizer.go:833-852) for one value
of `i`, walking `j` left to right with `cur` the current value of `files[i]`:
when `files[i]` is older than `files[j]` they swap, so position `j` receives
the displaced `cur` and `cur` becomes the old `files[j]`. The pair returned is
the final `files[i]` and the final contents of positions `i+1 ..`. -/
def selectPass (cur : MediaFileInfo) : List MediaFileInfo → MediaFileInfo × List MediaFileInfo
  | [] => (cur, [])
  | x :: xs =>
    if effTime cur < effTime x then
      ((selectPass x xs).1, cur :: (selectPass x xs).2)
    else
      ((selectPass cur xs).1, x :: (selectPass cur xs).2)

/-- The outer loop of Organizer.sortFiles: pass `i` fixes position `i` and the
remaining passes run on the suffix. The fuel equals the list length, which the
recursion consumes exactly (selectPass preserves length). -/
def sortFilesAux : Nat → List MediaFileInfo → List MediaFileInfo
  | 0, l => l
  | _, [] => []
  | fuel + 1, x :: xs => (selectPass x xs).1 :: sortFilesAux fuel (selectPass x xs).2

/-- Organizer.sortFiles (organizer.go:831-853). -/
def sortFilesGo (l : List MediaFileInfo) : List MediaFileInfo := sortFilesAux l.length l

/-- The pagination tail of Organizer.ScanFiles (organizer.go:789-802):
`start := offset; end := offset + limit`, return empty when `start` is at or
past the length, clamp `end` to the length, then slice `files[start:end]`.
`none` models the Go slice-bounds panic when `start < 0` or `start > end`. -/
def paginateGo (files : List MediaFileInfo) (limit offset : Int) : Option (List MediaFileInfo) :=
  if offset ≥ (files.length : Int) then some []
  else
    if 0 ≤ offset ∧ offset ≤ (if offset + limit > (files.length : Int)
        then (files.length : Int) else offset + limit) then
      some ((files.drop offset.toNat).take
        ((if offset + limit > (files.length : Int)
          then (files.length : Int) else offset + limit) - offset).toNat)
    else none

/-- Organizer.ScanFiles after the directory walk: the walked descriptors are
sorted in place and then paginated. -/
def scanFilesPage (files : List MediaFileInfo) (limit offset : Int) : Option (List MediaFileInfo) :=
  paginateGo (sortFilesGo files) limit offset

/-- Stem of the conflict counterexample name x.e. -/
def conflictStem : List Char := ['x']

/-- Extension of the conflict counterexample name x.e. -/
def conflictExt : List Char := ['.', 'e']

/-- A month directory holding x.e and x(1).e .. x(1000).e. -/
def bigDir : List (List Char) :=
  (conflictStem ++ conflictExt)
    :: (List.range 1000).map (fun i => candidateName conflictStem conflictExt (i + 1))

/-- The stat oracle of an empty target directory. -/
def statEmpty : List Char → Bool := fun _ => false

/-- A month directory holding a.jpg and a(1).jpg. -/
def smallDir : List (List Char) := ["a.jpg".data, "a(1).jpg".data]

/-- Three scan descriptors: capture dates 5 and 1, and one undated file of
modification time 9. -/
def scanSample : List MediaFileInfo :=
  [⟨"a", some 5, 0⟩, ⟨"b", none, 9⟩, ⟨"c", some 1, 0⟩]

/-! ### Concrete instances used by witnesses and counterexamples -/

/-- A stand-in for the SHA-256 hex digest in concrete runs that never compare
a digest against a matching expected value: the only fact such runs need from
the real function is that the digest differs from the stored strings ("zz" is
not a 64-character hex digest, and no chunk call below supplies a checksum). -/
def hashConst : List Nat → String := fun _ => "hh"

/-- One-byte upload driven to successful completion: create (size 1, chunk
size 1, no checksum) then upload chunk 0. -/
def mgrOneByte : Manager :=
  runOps hashConst (Manager.init 10)
    [.create "s" ⟨"f", 1, 1, ""⟩, .upload "s" 0 [7] ""]

/-- Same one-byte upload, but the session was created with the stored
whole-file checksum "zz". -/
def mgrStoredChecksum : Manager :=
  runOps hashConst (Manager.init 10)
    [.create "s" ⟨"f", 1, 1, "zz"⟩, .upload "s" 0 [7] ""]

/-- A four-byte session whose single full chunk is uploaded twice. -/
def mgrDoubleChunk : Manager :=
  runOps hashConst (Manager.init 10)
    [.create "s" ⟨"f", 4, 4, ""⟩, .upload "s" 0 [1, 2, 3, 4] "", .upload "s" 0 [1, 2, 3, 4] ""]

/-- The UploadChunk calls of a client that sends chunk `p.1` with payload
`p.2` (no per-chunk checksum), in list order. -/
def uploadOpsFor (id : String) (chunks : List (Nat × List Nat)) : List MgrOp :=
  chunks.map (fun p => .upload id (p.1 : Int) p.2 "")

/-- A four-byte file uploaded as two distinct two-byte chunks. -/
def mgrTwoChunks : Manager :=
  runOps hashConst (Manager.init 10)
    (.create "s" ⟨"f", 4, 2, ""⟩ :: uploadOpsFor "s" [(0, [1, 2]), (1, [3, 4])])

/-! ### Association-list lemmas for the session map -/

theorem lookup_mem {l : List (String × UploadSession)} {id : String} {s : UploadSession}
    (h : l.lookup id = some s) : (id, s) ∈ l := by
  induction l with
  | nil => simp [List.lookup] at h
  | cons p l ih =>
    obtain ⟨k, v⟩ := p
    by_cases hk : id = k
    · subst hk
      simp only [List.lookup, beq_self_eq_true] at h
      injection h with h
      subst h
      exact List.mem_cons_self _ _
    · have hbe : (id == k) = false := beq_eq_false_iff_ne.mpr hk
      simp only [List.lookup, hbe] at h
      exact List.mem_cons_of_mem _ (ih h)

theorem lookup_mapUpdate_self {l : List (String × UploadSession)} {id : String}
    {t : UploadSession} (h : l.lookup id = some t) (s : UploadSession) :
    (mapUpdate l id s).lookup id = some s := by
  induction l with
  | nil => simp [List.lookup] at h
  | cons p l ih =>
    obtain ⟨k, v⟩ := p
    by_cases hk : id = k
    · subst hk
      have h1 : mapUpdate ((id, v) :: l) id s
          = (id, s) :: l.map (fun p => if p.1 = id then (id, s) else p) := by
        simp [mapUpdate]
      rw [h1]
      simp [List.lookup]
    · have hk' : ¬ ((k, v).1 = id) := fun e => hk e.symm
      have hbe : (id == k) = false := beq_eq_false_iff_ne.mpr hk
      have h1 : mapUpdate ((k, v) :: l) id s = (k, v) :: mapUpdate l id s := by
        simp [mapUpdate, hk']
      rw [h1]
      simp only [List.lookup, hbe] at h ⊢
      exact ih h

theorem mem_mapUpdate {l : List (String × UploadSession)} {id : String} {s : UploadSession}
    {p : String × UploadSession} (h : p ∈ mapUpdate l id s) :
    p.2 = s ∨ p ∈ l := by
  simp only [mapUpdate, List.mem_map] at h
  obtain ⟨q, hq, hfq⟩ := h
  by_cases hk : q.1 = id
  · simp only [hk, if_true] at hfq
    left
    rw [← hfq]
  · simp only [hk, if_false] at hfq
    right
    rwa [← hfq]

theorem mem_mapInsert {l : List (String × UploadSession)} {id : String} {s : UploadSession}
    {p : String × UploadSession} (h : p ∈ mapInsert l id s) :
    p.2 = s ∨ p ∈ l := by
  by_cases hl : (l.lookup id).isSome
  · rw [mapInsert, if_pos hl] at h
    exact mem_mapUpdate h
  · rw [mapInsert, if_neg hl] at h
    rcases List.mem_append.1 h with h | h
    · exact Or.inr h
    · simp at h
      left
      rw [h]

/-! ### Claim C1: is Completed terminal? -/

/-- CompleteUpload success leaves the session with status Completed. -/
theorem completeUpload_sets_completed (h : List Nat → String) (m : Manager) (id : String)
    (c : String) (m' : Manager) (hrun : completeUpload h m id c = (m', none)) :
    ∃ s, m.sessions.lookup id = some s ∧
      m'.sessions.lookup id = some { s with status := .completed } := by
  cases hl : m.sessions.lookup id with
  | none =>
    simp only [completeUpload, hl] at hrun
    simp at hrun
  | some s =>
    simp only [completeUpload, hl] at hrun
    refine ⟨s, rfl, ?_⟩
    by_cases hsz : s.uploadedSize ≠ s.fileSize
    · rw [if_pos hsz] at hrun
      simp at hrun
    · rw [if_neg hsz] at hrun
      by_cases hck : c ≠ "" ∨ s.checksum ≠ ""
      · rw [if_pos hck] at hrun
        by_cases hv : (if c = "" then s.checksum else c) ≠ "" ∧
            h s.tempFile ≠ (if c = "" then s.checksum else c)
        · rw [if_pos hv] at hrun
          simp at hrun
        · rw [if_neg hv] at hrun
          injection hrun with h1 h2
          subst h1
          exact lookup_mapUpdate_self hl _
      · rw [if_neg hck] at hrun
        injection hrun with h1 h2
        subst h1
        exact lookup_mapUpdate_self hl _

/-- UploadChunk on an existing session with no per-chunk checksum and a
non-negative offset always succeeds and performs the accumulator update. -/
theorem uploadChunk_found (h : List Nat → String) (m : Manager) (id : String)
    (n : Int) (d : List Nat) (s : UploadSession) (hl : m.sessions.lookup id = some s)
    (hn : 0 ≤ n * s.chunkSize) :
    uploadChunk h m id n d "" =
      (⟨mapUpdate m.sessions id
          { s with
            tempFile := writeAt s.tempFile (n * s.chunkSize).toNat d
            uploadedSize := s.uploadedSize + d.length
            status := .uploading },
        m.maxSessions⟩, none) := by
  simp only [uploadChunk, hl]
  rw [if_neg (by simp), if_neg (not_lt.mpr hn)]

/-- Claim C1, amended. CompleteUpload success does set the session status to
Completed, but Completed is not terminal: the manager accepts a subsequent
UploadChunk for the same session ID (here with no per-chunk checksum and a
non-negative chunk number), which adds the chunk length to uploadedSize and
resets the status to Uploading. -/
theorem c1_completed_not_terminal (h : List Nat → String) (m m' : Manager) (id c : String)
    (hrun : completeUpload h m id c = (m', none)) :
    (∀ s', m'.sessions.lookup id = some s' → s'.status = .completed) ∧
    (∀ s' (n : Int) (d : List Nat), m'.sessions.lookup id = some s' →
      0 ≤ n * s'.chunkSize →
      uploadChunk h m' id n d "" =
        (⟨mapUpdate m'.sessions id
            { s' with
              tempFile := writeAt s'.tempFile (n * s'.chunkSize).toNat d
              uploadedSize := s'.uploadedSize + d.length
              status := .uploading },
          m'.maxSessions⟩, none)) := by
  obtain ⟨s, _, hl'⟩ := completeUpload_sets_completed h m id c m' hrun
  refine ⟨?_, ?_⟩
  · intro s' hs'
    rw [hl'] at hs'
    injection hs' with hs'
    rw [← hs']
  · intro s' n d hs' hn
    exact uploadChunk_found h m' id n d s' hs' hn

/-- Witness for C1 (amended): the concrete one-byte session is completed, and
the follow-up chunk upload is accepted with the predicted state change. -/
theorem c1_completed_not_terminal_witness :
    (∀ s', (completeUpload hashConst mgrOneByte "s" "").1.sessions.lookup "s" = some s' →
      s'.status = .completed) ∧
    (∀ s' (n : Int) (d : List Nat),
      (completeUpload hashConst mgrOneByte "s" "").1.sessions.lookup "s" = some s' →
      0 ≤ n * s'.chunkSize →
      uploadChunk hashConst (completeUpload hashConst mgrOneByte "s" "").1 "s" n d "" =
        (⟨mapUpdate (completeUpload hashConst mgrOneByte "s" "").1.sessions "s"
            { s' with
              tempFile := writeAt s'.tempFile (n * s'.chunkSize).toNat d
              uploadedSize := s'.uploadedSize + d.length
              status := .uploading },
          (completeUpload hashConst mgrOneByte "s" "").1.maxSessions⟩, none)) :=
  c1_completed_not_terminal hashConst mgrOneByte
    (completeUpload hashConst mgrOneByte "s" "").1 "s" "" (by decide)

/-- Counterexample to C1 as stated: the one-byte session completes
successfully (status Completed, uploadedSize 1), yet the next UploadChunk for
the same session ID is not rejected — it returns no error, bumps uploadedSize
to 2 and sets the status back to Uploading. -/
theorem c1_counterexample :
    (completeUpload hashConst mgrOneByte "s" "").2 = none ∧
    (((completeUpload hashConst mgrOneByte "s" "").1.sessions.lookup "s").map
      fun s => (s.uploadedSize, s.status)) = some (1, .completed) ∧
    (uploadChunk hashConst (completeUpload hashConst mgrOneByte "s" "").1 "s" 0 [9] "").2
      = none ∧
    (((uploadChunk hashConst (completeUpload hashConst mgrOneByte "s" "").1 "s" 0 [9] "").1.sessions.lookup "s").map
      fun s => (s.uploadedSize, s.status)) = some (2, .uploading) := by
  decide

/-! ### Claim C5: chunk checksum mismatch makes no state change -/

/-- Claim C5. For every existing session, a non-empty expected chunk checksum
that differs from the digest of the payload makes UploadChunk fail with the
checksum-mismatch error and return the manager completely unchanged (in
particular uploadedSize, status and the temp file contents of every session
are untouched). -/
theorem c5_checksum_mismatch_no_state_change (h : List Nat → String) (m : Manager)
    (id : String) (s : UploadSession) (n : Int) (d : List Nat) (exp : String)
    (hl : m.sessions.lookup id = some s) (hexp : exp ≠ "") (hne : h d ≠ exp) :
    uploadChunk h m id n d exp = (m, some .checksumMismatch) := by
  simp only [uploadChunk, hl]
  rw [if_pos ⟨hexp, hne⟩]

/-- Witness for C5 at the concrete one-byte session: expected "aa", digest
"hh". -/
theorem c5_checksum_mismatch_no_state_change_witness :
    uploadChunk hashConst mgrOneByte "s" 0 [1] "aa" = (mgrOneByte, some .checksumMismatch) :=
  c5_checksum_mismatch_no_state_change hashConst mgrOneByte "s"
    ((mgrOneByte.sessions.lookup "s").get (by decide)) 0 [1] "aa" (by decide)
    (by decide) (by decide)

/-! ### Claim C6: completion with no checksum -/

/-- Claim C6, amended. For every existing session whose stored creation-time
checksum is empty, CompleteUpload with no completion-time checksum succeeds
and sets the status to Completed exactly when uploadedSize equals fileSize;
when they differ it fails with the size-mismatch error and leaves the manager
unchanged (the unchanged-on-mismatch half holds for every session, with or
without a stored checksum). -/
theorem c6_complete_no_checksum (h : List Nat → String) (m : Manager) (id : String)
    (s : UploadSession) (hl : m.sessions.lookup id = some s) (hck : s.checksum = "") :
    (s.uploadedSize = s.fileSize →
      completeUpload h m id "" =
        (⟨mapUpdate m.sessions id { s with status := .completed }, m.maxSessions⟩, none)) ∧
    (s.uploadedSize ≠ s.fileSize → completeUpload h m id "" = (m, some .sizeMismatch)) := by
  constructor
  · intro hsz
    simp only [completeUpload, hl]
    rw [if_neg (by simp [hsz]), if_neg (by simp [hck])]
  · intro hsz
    simp only [completeUpload, hl]
    rw [if_pos hsz]

/-- Witness for C6 (amended) at the concrete one-byte session (stored
checksum empty, uploadedSize = fileSize = 1): completion succeeds. -/
theorem c6_complete_no_checksum_witness :
    completeUpload hashConst mgrOneByte "s" "" =
      (⟨mapUpdate mgrOneByte.sessions "s"
          { (mgrOneByte.sessions.lookup "s").get (by decide) with status := .completed },
        mgrOneByte.maxSessions⟩, none) :=
  (c6_complete_no_checksum hashConst mgrOneByte "s"
    ((mgrOneByte.sessions.lookup "s").get (by decide)) (by decide) (by decide)).1 (by decide)

/-- Counterexample to C6 as stated: a session created with the stored
checksum "zz" has uploadedSize = fileSize = 1, yet CompleteUpload with no
checksum fails with the file-checksum-mismatch error, because the stored
creation-time checksum is still verified (and the file digest — "hh" under
the model digest, a 64-character hex string under real SHA-256 — is not
"zz"). -/
theorem c6_counterexample :
    ((mgrStoredChecksum.sessions.lookup "s").map
      fun s => (s.uploadedSize, s.fileSize, s.checksum)) = some (1, 1, "zz") ∧
    completeUpload hashConst mgrStoredChecksum "s" ""
      = (mgrStoredChecksum, some .checksumMismatch) := by
  decide

/-! ### Claim C9: the shape of a freshly created session -/

/-- For positive size and chunk size, the Go expression `(S + C - 1) / C`
computes the ceiling of the rational quotient. -/
theorem add_sub_one_div_eq_ceil (S C : Int) (_hS : 0 < S) (hC : 0 < C) :
    (S + C - 1) / C = ⌈(S : ℚ) / (C : ℚ)⌉ := by
  have hq1 : ((S + C - 1) / C) * C ≤ S + C - 1 :=
    (Int.le_ediv_iff_mul_le hC).mp le_rfl
  have hq2 : S + C - 1 < ((S + C - 1) / C + 1) * C :=
    (Int.ediv_lt_iff_lt_mul hC).mp (lt_add_one _)
  have hub : S ≤ ((S + C - 1) / C) * C := by nlinarith
  have hlb : ((S + C - 1) / C - 1) * C < S := by nlinarith
  have hCQ : (0 : ℚ) < (C : ℚ) := by exact_mod_cast hC
  symm
  rw [Int.ceil_eq_iff]
  constructor
  · rw [lt_div_iff₀ hCQ]
    exact_mod_cast by linarith [hlb]
  · rw [div_le_iff₀ hCQ]
    exact_mod_cast hub

/-- Claim C9. A successful CreateSession with positive file size and chunk
size yields a session with totalChunks = ⌈fileSize / chunkSize⌉,
uploadedSize = 0, and a pre-allocated temp file of exactly fileSize (zero)
bytes. -/
theorem c9_create_session_shape (m m' : Manager) (id : String) (req : StartUploadRequest)
    (s : UploadSession) (hS : 0 < req.fileSize) (hC : 0 < req.chunkSize)
    (hrun : createSession m id req = (m', .ok s)) :
    s.totalChunks = ⌈(req.fileSize : ℚ) / (req.chunkSize : ℚ)⌉ ∧
    s.uploadedSize = 0 ∧
    (s.tempFile.length : Int) = req.fileSize ∧
    s.tempFile = List.replicate req.fileSize.toNat 0 := by
  unfold createSession at hrun
  split at hrun
  · simp at hrun
  · injection hrun with h1 h2
    injection h2 with h2
    subst h2
    refine ⟨?_, rfl, ?_, rfl⟩
    · exact add_sub_one_div_eq_ceil req.fileSize req.chunkSize hS hC
    · simp [newSession, Int.toNat_of_nonneg hS.le]

/-- Witness for C9: size 5 with chunk size 2 gives 3 chunks and a 5-byte temp
file. -/
theorem c9_create_session_shape_witness :
    (newSession ⟨"f", 5, 2, ""⟩).totalChunks
        = ⌈(((5 : Int) : ℚ)) / (((2 : Int) : ℚ))⌉ ∧
    (newSession ⟨"f", 5, 2, ""⟩).uploadedSize = 0 ∧
    (((newSession ⟨"f", 5, 2, ""⟩).tempFile.length : Int)) = (5 : Int) ∧
    (newSession ⟨"f", 5, 2, ""⟩).tempFile = List.replicate ((5 : Int)).toNat 0 :=
  c9_create_session_shape (Manager.init 10) (createSession (Manager.init 10) "s" ⟨"f", 5, 2, ""⟩).1
    "s" ⟨"f", 5, 2, ""⟩ (newSession ⟨"f", 5, 2, ""⟩) (by decide) (by decide) rfl

/-! ### Claim C2: bounds on uploadedSize -/

/-- Every non-empty list of numbered chunks has an entry of maximal chunk
number. -/
theorem exists_max_key :
    ∀ (l : List (Nat × Nat)), l ≠ [] → ∃ p ∈ l, ∀ q ∈ l, q.1 ≤ p.1 := by
  intro l
  induction l with
  | nil => intro hne; exact absurd rfl hne
  | cons x t ih =>
    intro _
    cases t with
    | nil =>
      exact ⟨x, List.mem_cons_self _ _, by intro q hq; simp at hq; rw [hq]⟩
    | cons y u =>
      obtain ⟨p, hp, hmax⟩ := ih (by simp)
      by_cases hxp : p.1 ≤ x.1
      · refine ⟨x, List.mem_cons_self _ _, ?_⟩
        intro q hq
        rcases List.mem_cons.1 hq with rfl | hq
        · exact le_rfl
        · exact (hmax q hq).trans hxp
      · refine ⟨p, List.mem_cons_of_mem _ hp, ?_⟩
        intro q hq
        rcases List.mem_cons.1 hq with rfl | hq
        · exact (not_le.1 hxp).le
        · exact hmax q hq

/-- Distinct chunk numbers with in-bounds payloads cannot sum past the file
size: each payload fits inside [n·C, S), so distinct slots pack below S. -/
theorem sum_len_le (C : Nat) (_hC : 0 < C) :
    ∀ (n : Nat) (l : List (Nat × Nat)) (S : Nat), l.length = n →
      (l.map Prod.fst).Nodup →
      (∀ p ∈ l, p.2 ≤ C ∧ p.1 * C + p.2 ≤ S) →
      (l.map Prod.snd).sum ≤ S := by
  intro n
  induction n using Nat.strong_induction_on with
  | _ n ih =>
    intro l S hlen hnd hb
    cases hl : l with
    | nil => simp
    | cons x t =>
      subst hl
      obtain ⟨p, hp, hmax⟩ := exists_max_key (x :: t) (by simp)
      obtain ⟨l₁, l₂, hsplit⟩ := List.append_of_mem hp
      rw [hsplit] at hnd hb hmax ⊢
      have hlen' : (l₁ ++ l₂).length = (l₁ ++ p :: l₂).length - 1 := by
        simp [List.length_append]
      have hsub : (l₁ ++ l₂).Sublist (l₁ ++ p :: l₂) :=
        List.Sublist.append_left (List.sublist_cons_self _ _) _
      have hnd' : ((l₁ ++ l₂).map Prod.fst).Nodup :=
        (hnd.sublist (hsub.map Prod.fst))
      have hkey : ∀ q ∈ l₁ ++ l₂, q.1 ≠ p.1 := by
        intro q hq hqp
        have h1 : (l₁.map Prod.fst ++ p.1 :: l₂.map Prod.fst).Nodup := by
          simpa using hnd
        rw [List.nodup_append] at h1
        rcases List.mem_append.1 hq with hq1 | hq2
        · exact h1.2.2 (List.mem_map_of_mem Prod.fst hq1)
            (by rw [hqp]; exact List.mem_cons_self _ _)
        · exact (List.nodup_cons.1 h1.2.1).1 (hqp ▸ List.mem_map_of_mem Prod.fst hq2)
      have hb' : ∀ q ∈ l₁ ++ l₂, q.2 ≤ C ∧ q.1 * C + q.2 ≤ p.1 * C := by
        intro q hq
        have hqmem : q ∈ l₁ ++ p :: l₂ := hsub.subset hq
        refine ⟨(hb q hqmem).1, ?_⟩
        have hlt : q.1 < p.1 := lt_of_le_of_ne (hmax q hqmem) (hkey q hq)
        have : q.1 * C + q.2 ≤ q.1 * C + C := Nat.add_le_add_left (hb q hqmem).1 _
        calc q.1 * C + q.2 ≤ q.1 * C + C := this
          _ = (q.1 + 1) * C := by ring
          _ ≤ p.1 * C := Nat.mul_le_mul_right _ hlt
      have hlen'' : (l₁ ++ p :: l₂).length = n := by rw [← hsplit]; exact hlen
      have hrest : ((l₁ ++ l₂).map Prod.snd).sum ≤ p.1 * C := by
        refine ih ((l₁ ++ l₂).length) ?_ (l₁ ++ l₂) (p.1 * C) rfl hnd' hb'
        rw [hlen']
        have : 0 < (l₁ ++ p :: l₂).length := by simp
        omega
      have hpb : p.1 * C + p.2 ≤ S := (hb p (by simp)).2
      have hsum : ((l₁ ++ p :: l₂).map Prod.snd).sum
          = ((l₁ ++ l₂).map Prod.snd).sum + p.2 := by
        simp [List.map_append, List.sum_append]
        ring
      rw [hsum]
      omega

/-- Every session value stored by the manager has a non-negative
uploadedSize; preserved by every single API call. -/
theorem applyOp_nonneg (h : List Nat → String) (m : Manager) (op : MgrOp)
    (hP : ∀ p ∈ m.sessions, 0 ≤ p.2.uploadedSize) :
    ∀ p ∈ (applyOp h m op).sessions, 0 ≤ p.2.uploadedSize := by
  cases op with
  | create id req =>
    simp only [applyOp, createSession]
    split
    · exact hP
    · intro p hp
      rcases mem_mapInsert hp with hv | hv
      · rw [hv]; simp [newSession]
      · exact hP p hv
  | upload id n d exp =>
    cases hl : m.sessions.lookup id with
    | none => simp only [applyOp, uploadChunk, hl]; exact hP
    | some s =>
      simp only [applyOp, uploadChunk, hl]
      split
      · exact hP
      · split
        · exact hP
        · intro p hp
          rcases mem_mapUpdate hp with hv | hv
          · rw [hv]
            have h0 : 0 ≤ s.uploadedSize := hP _ (lookup_mem hl)
            have h1 : (0 : Int) ≤ (d.length : Int) := Int.natCast_nonneg _
            simpa using add_nonneg h0 h1
          · exact hP p hv
  | complete id exp =>
    cases hl : m.sessions.lookup id with
    | none => simp only [applyOp, completeUpload, hl]; exact hP
    | some s =>
      have hupd : ∀ p ∈ mapUpdate m.sessions id { s with status := .completed },
          0 ≤ p.2.uploadedSize := by
        intro p hp
        rcases mem_mapUpdate hp with hv | hv
        · rw [hv]; exact hP _ (lookup_mem hl)
        · exact hP p hv
      simp only [applyOp, completeUpload, hl]
      repeat' split
      all_goals first | exact hP | exact hupd
  | pause id =>
    cases hl : m.sessions.lookup id with
    | none => simp only [applyOp, pauseUpload, hl]; exact hP
    | some s =>
      simp only [applyOp, pauseUpload, hl]
      intro p hp
      rcases mem_mapUpdate hp with hv | hv
      · rw [hv]; exact hP _ (lookup_mem hl)
      · exact hP p hv
  | resume id =>
    cases hl : m.sessions.lookup id with
    | none => simp only [applyOp, resumeUpload, hl]; exact hP
    | some s =>
      simp only [applyOp, resumeUpload, hl]
      split
      · exact hP
      · intro p hp
        rcases mem_mapUpdate hp with hv | hv
        · rw [hv]; exact hP _ (lookup_mem hl)
        · exact hP p hv
  | cancel id =>
    cases hl : m.sessions.lookup id with
    | none => simp only [applyOp, cancelUpload, hl]; exact hP
    | some s =>
      simp only [applyOp, cancelUpload, hl]
      intro p hp
      exact hP p (List.mem_of_mem_filter hp)
  | cleanup id =>
    cases hl : m.sessions.lookup id with
    | none => simp only [applyOp, cleanupSession, hl]; exact hP
    | some s =>
      simp only [applyOp, cleanupSession, hl]
      intro p hp
      exact hP p (List.mem_of_mem_filter hp)

/-- The non-negativity invariant holds after any call sequence. -/
theorem runOps_nonneg (h : List Nat → String) (ops : List MgrOp) :
    ∀ (m : Manager), (∀ p ∈ m.sessions, 0 ≤ p.2.uploadedSize) →
      ∀ p ∈ (runOps h m ops).sessions, 0 ≤ p.2.uploadedSize := by
  induction ops with
  | nil => intro m hP; exact hP
  | cons op ops ih =>
    intro m hP
    exact ih (applyOp h m op) (applyOp_nonneg h m op hP)

/-- Chunk uploads addressed to an unknown session leave the manager
unchanged. -/
theorem runUploads_empty (h : List Nat → String) (id : String) (maxS : Nat) :
    ∀ (chunks : List (Nat × List Nat)),
      runOps h ⟨[], maxS⟩ (uploadOpsFor id chunks) = ⟨[], maxS⟩ := by
  intro chunks
  induction chunks with
  | nil => rfl
  | cons c t ih =>
    have h1 : applyOp h ⟨[], maxS⟩ (.upload id (c.1 : Int) c.2 "") = ⟨[], maxS⟩ := by
      simp [applyOp, uploadChunk, List.lookup]
    simp only [uploadOpsFor, List.map_cons, runOps, h1]
    exact ih

/-- Running the chunk uploads of one client against its freshly created
session: the session map keeps exactly that session, its accumulator gains
the total payload length, and fileSize/chunkSize are untouched. -/
theorem runUploads_single (h : List Nat → String) (id : String) (maxS : Nat) :
    ∀ (chunks : List (Nat × List Nat)) (s : UploadSession), 0 < s.chunkSize →
      ∃ s', runOps h ⟨[(id, s)], maxS⟩ (uploadOpsFor id chunks) = ⟨[(id, s')], maxS⟩ ∧
        s'.uploadedSize = s.uploadedSize + (((chunks.map fun p => p.2.length).sum : Nat) : Int) ∧
        s'.fileSize = s.fileSize ∧ s'.chunkSize = s.chunkSize := by
  intro chunks
  induction chunks with
  | nil =>
    intro s hCs
    exact ⟨s, rfl, by simp, rfl, rfl⟩
  | cons c t ih =>
    intro s hCs
    have hl : List.lookup id [(id, s)] = some s := by simp [List.lookup]
    have hoff : (0 : Int) ≤ (c.1 : Int) * s.chunkSize :=
      mul_nonneg (Int.natCast_nonneg _) hCs.le
    have h1 : applyOp h ⟨[(id, s)], maxS⟩ (.upload id (c.1 : Int) c.2 "") =
        ⟨[(id, { s with
            tempFile := writeAt s.tempFile ((c.1 : Int) * s.chunkSize).toNat c.2
            uploadedSize := s.uploadedSize + c.2.length
            status := .uploading })], maxS⟩ := by
      show (uploadChunk h ⟨[(id, s)], maxS⟩ id (c.1 : Int) c.2 "").1 = _
      rw [uploadChunk_found h ⟨[(id, s)], maxS⟩ id (c.1 : Int) c.2 s hl hoff]
      simp [mapUpdate]
    obtain ⟨s', hrun, hup, hfs, hcs⟩ := ih { s with
        tempFile := writeAt s.tempFile ((c.1 : Int) * s.chunkSize).toNat c.2
        uploadedSize := s.uploadedSize + c.2.length
        status := .uploading } (by simpa using hCs)
    refine ⟨s', ?_, ?_, hfs, hcs⟩
    · simp only [uploadOpsFor, List.map_cons, runOps, h1]
      exact hrun
    · rw [hup]
      simp
      ring

/-- Claim C2, amended. The lower bound 0 ≤ uploadedSize holds for every
session after every call sequence, but the upper bound
uploadedSize ≤ fileSize is guaranteed only for disciplined chunk uploads:
each chunk number sent at most once, each payload fitting inside its slot
(payload ≤ chunkSize and chunkNumber·chunkSize + payload ≤ fileSize). The
accumulator `UploadedSize += len(data)` double-counts re-sent chunk numbers,
which can push uploadedSize past fileSize (see the counterexample). -/
theorem c2_uploaded_size_invariant :
    (∀ (h : List Nat → String) (maxS : Nat) (ops : List MgrOp) (id : String)
      (s : UploadSession),
      (runOps h (Manager.init maxS) ops).sessions.lookup id = some s →
      0 ≤ s.uploadedSize) ∧
    (∀ (h : List Nat → String) (maxS : Nat) (id : String) (req : StartUploadRequest)
      (chunks : List (Nat × List Nat)) (s : UploadSession),
      0 < req.fileSize → 0 < req.chunkSize →
      (chunks.map Prod.fst).Nodup →
      (∀ p ∈ chunks, p.2.length ≤ req.chunkSize.toNat ∧
        p.1 * req.chunkSize.toNat + p.2.length ≤ req.fileSize.toNat) →
      (runOps h (Manager.init maxS)
        (.create id req :: uploadOpsFor id chunks)).sessions.lookup id = some s →
      0 ≤ s.uploadedSize ∧ s.uploadedSize ≤ s.fileSize) := by
  constructor
  · intro h maxS ops id s hlook
    exact runOps_nonneg h ops (Manager.init maxS) (by intro p hp; simp [Manager.init] at hp)
      (id, s) (lookup_mem hlook)
  · intro h maxS id req chunks s hS hC hnd hb hlook
    rw [show (MgrOp.create id req :: uploadOpsFor id chunks) =
      ([MgrOp.create id req] ++ uploadOpsFor id chunks) from rfl] at hlook
    by_cases hmax : (0 : Nat) ≥ maxS
    · have hcreate : applyOp h (Manager.init maxS) (.create id req) = ⟨[], maxS⟩ := by
        simp only [applyOp, createSession, Manager.init]
        rw [if_pos (by simpa using hmax)]
      rw [show runOps h (Manager.init maxS) ([MgrOp.create id req] ++ uploadOpsFor id chunks)
        = runOps h (applyOp h (Manager.init maxS) (.create id req)) (uploadOpsFor id chunks)
        from rfl, hcreate, runUploads_empty] at hlook
      simp [List.lookup] at hlook
    · have hcreate : applyOp h (Manager.init maxS) (.create id req)
          = ⟨[(id, newSession req)], maxS⟩ := by
        simp only [applyOp, createSession, Manager.init]
        rw [if_neg (by simpa using hmax)]
        simp [mapInsert, List.lookup]
      obtain ⟨s', hrun, hup, hfs, hcs⟩ :=
        runUploads_single h id maxS chunks (newSession req) (by simpa [newSession] using hC)
      rw [show runOps h (Manager.init maxS) ([MgrOp.create id req] ++ uploadOpsFor id chunks)
        = runOps h (applyOp h (Manager.init maxS) (.create id req)) (uploadOpsFor id chunks)
        from rfl, hcreate, hrun] at hlook
      simp [List.lookup] at hlook
      subst hlook
      have hsum : ((chunks.map fun p => p.2.length).sum : Nat) ≤ req.fileSize.toNat := by
        have hmap : ((chunks.map fun p => (p.1, p.2.length)).map Prod.snd).sum
            = (chunks.map fun p => p.2.length).sum := by
          rw [List.map_map]
          rfl
        rw [← hmap]
        refine sum_len_le req.chunkSize.toNat (by omega)
          chunks.length (chunks.map fun p => (p.1, p.2.length)) req.fileSize.toNat
          (by simp) ?_ ?_
        · simpa [List.map_map, Function.comp] using hnd
        · intro q hq
          obtain ⟨p, hp, rfl⟩ := List.mem_map.1 hq
          exact hb p hp
      have hup' : s'.uploadedSize = (((chunks.map fun p => p.2.length).sum : Nat) : Int) := by
        rw [hup]
        simp [newSession]
      constructor
      · rw [hup']
        exact Int.natCast_nonneg _
      · rw [hup', hfs]
        simp only [newSession]
        calc (((chunks.map fun p => p.2.length).sum : Nat) : Int)
            ≤ (req.fileSize.toNat : Int) := by exact_mod_cast hsum
          _ = req.fileSize := Int.toNat_of_nonneg hS.le

/-- Witness for C2 (amended): two distinct in-bounds chunks on a four-byte
session give 0 ≤ uploadedSize ≤ fileSize. -/
theorem c2_uploaded_size_invariant_witness :
    0 ≤ ((mgrTwoChunks.sessions.lookup "s").get (by decide)).uploadedSize ∧
    ((mgrTwoChunks.sessions.lookup "s").get (by decide)).uploadedSize
      ≤ ((mgrTwoChunks.sessions.lookup "s").get (by decide)).fileSize :=
  c2_uploaded_size_invariant.2 hashConst 10 "s" ⟨"f", 4, 2, ""⟩ [(0, [1, 2]), (1, [3, 4])]
    ((mgrTwoChunks.sessions.lookup "s").get (by decide))
    (by decide) (by decide) (by decide) (by decide) (Option.some_get _).symm

/-- Counterexample to C2 as stated: uploading the same full chunk number
twice (a legal chunk with a legal payload, repeated) yields
uploadedSize = 8 > fileSize = 4. -/
theorem c2_counterexample :
    ((mgrDoubleChunk.sessions.lookup "s").map fun s => (s.uploadedSize, s.fileSize))
      = some (8, 4) ∧
    ((mgrDoubleChunk.sessions.lookup "s").map fun s => decide (s.uploadedSize ≤ s.fileSize))
      = some false := by
  decide

/-! ### Decimal rendering lemmas -/

/-- The fuel of decimalAux is irrelevant as long as it exceeds the value. -/
theorem decimalAux_fuel (n : Nat) : ∀ f1 f2, n < f1 → n < f2 →
    decimalAux f1 n = decimalAux f2 n := by
  induction n using Nat.strong_induction_on with
  | _ n ih =>
    intro f1 f2 h1 h2
    cases f1 with
    | zero => omega
    | succ m1 =>
      cases f2 with
      | zero => omega
      | succ m2 =>
        by_cases hn : n < 10
        · simp [decimalAux, hn]
        · have hd : n / 10 < n := Nat.div_lt_self (by omega) (by omega)
          simp only [decimalAux, hn, if_false]
          rw [ih (n / 10) hd m1 m2 (by omega) (by omega)]

theorem decimalStr_low {n : Nat} (h : n < 10) : decimalStr n = [digitChar n] := by
  simp [decimalStr, decimalAux, h]

theorem decimalStr_high {n : Nat} (h : 10 ≤ n) :
    decimalStr n = decimalStr (n / 10) ++ [digitChar (n % 10)] := by
  have hd : n / 10 < n := Nat.div_lt_self (by omega) (by omega)
  show decimalAux (n + 1) n = decimalAux (n / 10 + 1) (n / 10) ++ [digitChar (n % 10)]
  conv_lhs => rw [decimalAux]
  rw [if_neg (Nat.not_lt.mpr h)]
  rw [decimalAux_fuel (n / 10) n (n / 10 + 1) hd (by omega)]

theorem decimalStr_length_le : ∀ (k n : Nat), 0 < k → n < 10 ^ k →
    (decimalStr n).length ≤ k := by
  intro k
  induction k with
  | zero => omega
  | succ k ih =>
    intro n _ hn
    by_cases h10 : n < 10
    · rw [decimalStr_low h10]
      simp
    · have hk : 0 < k := by
        by_contra hk0
        have : k = 0 := by omega
        subst this
        simp at hn
        omega
      rw [decimalStr_high (by omega)]
      have : n / 10 < 10 ^ k := by
        rw [Nat.div_lt_iff_lt_mul (by omega)]
        calc n < 10 ^ (k + 1) := hn
          _ = 10 ^ k * 10 := by ring
      have := ih (n / 10) hk this
      simp [List.length_append]
      omega

/-- padYear4 pads any value below 10000 to exactly four characters. -/
theorem padYear4_length {n : Nat} (h : n < 10000) : (padYear4 n).length = 4 := by
  have hle : (decimalStr n).length ≤ 4 := decimalStr_length_le 4 n (by omega) (by norm_num; omega)
  simp [padYear4, List.length_append]
  omega

/-! ### Claim C3: target directory from the validated date -/

/-- Claim C3. The target directory is mediaRoot/<year>/<month name> of the
validated date, where validation keeps an in-range date and replaces an
absent date, a date before 1990-01-01, or a date after now+1year by the
current time; the formatted year has exactly four digits for every year up to
9999 (Go zero-pads "2006"), and the month component is the full English name
(see the witness for 2024-03-15 ↦ root/2024/March and for the 1899-01-01
replacement). -/
theorem c3_target_directory (root : String) (now : GoDate) (d : Option GoDate) :
    getTargetDirectory root now d
      = root ++ "/" ++ formatYear (validateDate now d).year ++ "/"
          ++ monthName (validateDate now d).month ∧
    validateDate now none = now ∧
    (∀ dt, (dt.before minDate || dt.after (addYears now 1)) = true →
      validateDate now (some dt) = now) ∧
    (∀ dt, (dt.before minDate || dt.after (addYears now 1)) = false →
      validateDate now (some dt) = dt) ∧
    (∀ y : Int, 0 ≤ y → y ≤ 9999 → (formatYear y).length = 4) := by
  refine ⟨rfl, rfl, ?_, ?_, ?_⟩
  · intro dt hcond
    simp [validateDate, hcond]
  · intro dt hcond
    simp [validateDate, hcond]
  · intro y h0 h9999
    have : y.toNat < 10000 := by omega
    simpa [formatYear, String.length] using padYear4_length this

/-- Witness for C3: a 2024-03-15 capture date lands in root/2024/March, a
1899-01-01 date is replaced by the current date (2025-10-11 here), and the
year component is 4 characters. -/
theorem c3_target_directory_witness :
    getTargetDirectory "root" ⟨2025, 10, 11⟩ (some ⟨2024, 3, 15⟩) = "root/2024/March" ∧
    validateDate ⟨2025, 10, 11⟩ (some ⟨1899, 1, 1⟩) = ⟨2025, 10, 11⟩ ∧
    getTargetDirectory "root" ⟨2025, 10, 11⟩ (some ⟨1899, 1, 1⟩) = "root/2025/October" ∧
    (formatYear 2024).length = 4 :=
  ⟨(c3_target_directory "root" ⟨2025, 10, 11⟩ (some ⟨2024, 3, 15⟩)).1.trans (by decide),
   (c3_target_directory "root" ⟨2025, 10, 11⟩ (some ⟨1899, 1, 1⟩)).2.2.1 ⟨1899, 1, 1⟩ (by decide),
   (c3_target_directory "root" ⟨2025, 10, 11⟩ (some ⟨1899, 1, 1⟩)).1.trans (by decide),
   (c3_target_directory "root" ⟨2025, 10, 11⟩ none).2.2.2.2 2024 (by decide) (by decide)⟩

/-! ### Claim C4: byte-identical duplicates are a no-op -/

/-- Claim C4. If the incoming bytes hash-match some existing file of the
target month directory, OrganizeFile leaves the directory unchanged, deletes
the temp file and reports no error; organizing the same bytes again after any
successful organize is such a no-op; and when no match existed before, the
call leaves exactly one file with the incoming content's hash on disk. -/
theorem c4_duplicate_no_op (h : List Nat → String) (fuel : Nat)
    (dir : List (List Char × List Nat)) (temp : List Nat) (name1 name2 : List Char) :
    ((∃ e ∈ dir, h e.2 = h temp) →
      organizeFile h fuel dir temp name1 = some ⟨dir, true, true⟩) ∧
    (∀ r, organizeFile h fuel dir temp name1 = some r →
      ∀ fuel2, organizeFile h fuel2 r.dir temp name2 = some ⟨r.dir, true, true⟩) ∧
    ((dir.countP fun e => h e.2 == h temp) = 0 →
      ∀ r, organizeFile h fuel dir temp name1 = some r →
      (r.dir.countP fun e => h e.2 == h temp) = 1) := by
  have hdup_of_mem : ∀ (d : List (List Char × List Nat)), (∃ e ∈ d, h e.2 = h temp) →
      checkDuplicate h d temp = true := by
    intro d ⟨e, he, heq⟩
    simp only [checkDuplicate, List.any_eq_true]
    exact ⟨e, he, by simp [heq]⟩
  refine ⟨?_, ?_, ?_⟩
  · intro hex
    rw [organizeFile, if_pos (hdup_of_mem dir hex)]
  · intro r hr fuel2
    have hr_mem : ∃ e ∈ r.dir, h e.2 = h temp := by
      by_cases hdup : checkDuplicate h dir temp = true
      · rw [organizeFile, if_pos hdup] at hr
        injection hr with hr
        subst hr
        simp only [checkDuplicate, List.any_eq_true] at hdup
        obtain ⟨e, he, heq⟩ := hdup
        exact ⟨e, he, by simpa using heq⟩
      · rw [organizeFile, if_neg hdup] at hr
        cases hs : sanitizeFileName name1 with
        | none => simp only [hs] at hr; cases hr
        | some nm =>
          simp only [hs] at hr
          cases hh : handleDuplicates (fun s => dir.any fun e => e.1 == s) nm fuel with
          | none => simp only [hh] at hr; cases hr
          | some fn =>
            simp only [hh] at hr
            injection hr with hr
            subst hr
            exact ⟨(fn, temp), by simp, rfl⟩
    rw [organizeFile, if_pos (hdup_of_mem r.dir hr_mem)]
  · intro hcount r hr
    have hdup : ¬ checkDuplicate h dir temp = true := by
      intro hdup
      simp only [checkDuplicate, List.any_eq_true] at hdup
      obtain ⟨e, he, heq⟩ := hdup
      have := List.countP_eq_zero.mp hcount e he
      exact this heq
    rw [organizeFile, if_neg hdup] at hr
    cases hs : sanitizeFileName name1 with
    | none => simp only [hs] at hr; cases hr
    | some nm =>
      simp only [hs] at hr
      cases hh : handleDuplicates (fun s => dir.any fun e => e.1 == s) nm fuel with
      | none => simp only [hh] at hr; cases hr
      | some fn =>
        simp only [hh] at hr
        injection hr with hr
        subst hr
        simp [List.countP_append, hcount, List.countP_cons]

/-- Witness for C4: with the model digest, organizing bytes [9] into a
directory that hash-matches is a no-op; organizing into an empty directory
adds the file, after which re-organizing the same bytes is a no-op and
exactly one matching file exists. -/
theorem c4_duplicate_no_op_witness :
    organizeFile hashConst 5 [("a.jpg".data, [1])] [9] "b.jpg".data
      = some ⟨[("a.jpg".data, [1])], true, true⟩ ∧
    organizeFile hashConst 5 [("b.jpg".data, [9])] [9] "c.jpg".data
      = some ⟨[("b.jpg".data, [9])], true, true⟩ ∧
    ([("b.jpg".data, [9])].countP fun e => hashConst e.2 == hashConst [9]) = 1 :=
  ⟨(c4_duplicate_no_op hashConst 5 [("a.jpg".data, [1])] [9] "b.jpg".data "x".data).1
      ⟨("a.jpg".data, [1]), by decide, by decide⟩,
   (c4_duplicate_no_op hashConst 5 [] [9] "b.jpg".data "c.jpg".data).2.1
      ⟨[("b.jpg".data, [9])], true, false⟩ (by decide) 5,
   (c4_duplicate_no_op hashConst 5 [] [9] "b.jpg".data "x".data).2.2 (by decide)
      ⟨[("b.jpg".data, [9])], true, false⟩ (by decide)⟩

/-! ### Claim C10: sanitizer idempotence -/

theorem mem_of_mem_dropWhile {α : Type} {p : α → Bool} {l : List α} {c : α}
    (h : c ∈ l.dropWhile p) : c ∈ l := by
  induction l with
  | nil => simp at h
  | cons x t ih =>
    by_cases hp : p x
    · rw [List.dropWhile_cons, if_pos hp] at h
      exact List.mem_cons_of_mem _ (ih h)
    · rw [List.dropWhile_cons, if_neg hp] at h
      exact h

theorem mem_of_mem_trimEndsBytes {l : List Nat} {b : Nat} (h : b ∈ trimEndsBytes l) :
    b ∈ l := by
  simp only [trimEndsBytes, List.mem_reverse] at h
  have h1 := mem_of_mem_dropWhile h
  rw [List.mem_reverse] at h1
  exact mem_of_mem_dropWhile h1

theorem splitExtBytes_append (cs : List Nat) :
    (splitExtBytes cs).1 ++ (splitExtBytes cs).2 = cs := by
  unfold splitExtBytes
  split
  · simp
  · simp [List.take_append_drop]

/-- Replacement output bytes are never path-unsafe. -/
theorem replaceByte_safe (b : Nat) : unsafeBytes.contains (replaceByte b) = false := by
  unfold replaceByte
  split
  · decide
  · next hb => simpa using hb

/-- On ASCII bytes the rune-decoding control-strip loop is a plain filter:
each byte decodes to itself with size one and re-encodes to itself. -/
theorem cleanBytesAux_ascii : ∀ (fuel : Nat) (l : List Nat), l.length ≤ fuel →
    (∀ b ∈ l, b < 0x80) → cleanBytesAux fuel l = l.filter (fun b => !(isCtrlRune b)) := by
  intro fuel
  induction fuel with
  | zero =>
    intro l hl _
    rw [Nat.le_zero] at hl
    rw [List.length_eq_zero] at hl
    subst hl
    rfl
  | succ fuel ih =>
    intro l hl hascii
    cases l with
    | nil => rfl
    | cons b rest =>
      have hb : b < 0x80 := hascii b (List.mem_cons_self _ _)
      have hdec : decodeRune b rest = (b, 1) := by unfold decodeRune; rw [if_pos hb]
      have hrest := ih rest (by simpa using hl)
        (fun x hx => hascii x (List.mem_cons_of_mem _ hx))
      have henc : encodeRune b = [b] := by unfold encodeRune; rw [if_pos hb]
      simp only [cleanBytesAux, hdec]
      by_cases hctrl : isCtrlRune b
      · rw [if_pos hctrl]
        simp [hrest, List.filter_cons, hctrl]
      · rw [if_neg hctrl]
        simp [hrest, henc, List.filter_cons, hctrl]

/-- cleanBytes on ASCII bytes. -/
theorem cleanBytes_ascii (l : List Nat) (h : ∀ b ∈ l, b < 0x80) :
    cleanBytes l = l.filter (fun b => !(isCtrlRune b)) :=
  cleanBytesAux_ascii l.length l le_rfl h

/-- Bytes surviving replacement, ASCII control-stripping and trimming are
ASCII, safe and non-control. -/
theorem cleanedBytes_chars {s : List Nat} {b : Nat} (hascii : ∀ x ∈ s, x < 0x80)
    (h : b ∈ trimEndsBytes (cleanBytes (s.map replaceByte))) :
    b < 0x80 ∧ unsafeBytes.contains b = false ∧ isCtrlRune b = false := by
  have hmapascii : ∀ x ∈ s.map replaceByte, x < 0x80 := by
    intro x hx
    obtain ⟨x0, hx0, rfl⟩ := List.mem_map.1 hx
    unfold replaceByte
    split
    · omega
    · exact hascii x0 hx0
  rw [cleanBytes_ascii _ hmapascii] at h
  have h1 := mem_of_mem_trimEndsBytes h
  rw [List.mem_filter] at h1
  obtain ⟨hm, hf⟩ := h1
  obtain ⟨b0, _, rfl⟩ := List.mem_map.1 hm
  exact ⟨hmapascii _ hm, replaceByte_safe b0, by simpa using hf⟩

/-- Every name produced by sanitizeCoreBytes from ASCII, safe, non-control
bytes keeps those properties, is non-empty, and is at most 200 bytes long. -/
theorem sanitizeCoreBytes_props (t r : List Nat)
    (hc : ∀ b ∈ t, b < 0x80 ∧ unsafeBytes.contains b = false ∧ isCtrlRune b = false)
    (hs : sanitizeCoreBytes t = some r) :
    (∀ b ∈ r, b < 0x80 ∧ unsafeBytes.contains b = false ∧ isCtrlRune b = false) ∧
    r ≠ [] ∧ r.length ≤ 200 := by
  have hsplitlen : (splitExtBytes t).1.length + (splitExtBytes t).2.length = t.length := by
    conv_rhs => rw [← splitExtBytes_append t]
    simp
  unfold sanitizeCoreBytes at hs
  by_cases ht0 : t = []
  · rw [if_pos ht0] at hs
    injection hs with hs
    subst hs
    exact ⟨by decide, by decide, by decide⟩
  · rw [if_neg ht0] at hs
    by_cases htlen : t.length > 200
    · rw [if_pos htlen] at hs
      by_cases hname : ((splitExtBytes t).1.length : Int)
          > 200 - ((splitExtBytes t).2.length : Int)
      · rw [if_pos hname] at hs
        by_cases hpanic : (200 : Int) - ((splitExtBytes t).2.length : Int) < 0
        · rw [if_pos hpanic] at hs
          cases hs
        · rw [if_neg hpanic] at hs
          injection hs with hs
          subst hs
          refine ⟨?_, ?_, ?_⟩
          · intro b hbm
            rcases List.mem_append.1 hbm with hbm | hbm
            · exact hc b (by
                have := List.take_subset _ _ hbm
                rw [← splitExtBytes_append t]
                exact List.mem_append.2 (Or.inl this))
            · exact hc b (by
                rw [← splitExtBytes_append t]
                exact List.mem_append.2 (Or.inr hbm))
          · intro hnil
            rw [List.append_eq_nil] at hnil
            have htake := hnil.1
            have hext : (splitExtBytes t).2.length = 0 := by rw [hnil.2]; rfl
            rw [List.take_eq_nil_iff] at htake
            rcases htake with htake | htake
            · omega
            · have hm : (splitExtBytes t).1.length = 0 := by rw [htake]; rfl
              omega
          · rw [List.length_append, List.length_take]
            omega
      · exfalso
        omega
    · rw [if_neg htlen] at hs
      injection hs with hs
      subst hs
      exact ⟨hc, ht0, by omega⟩

/-- Claim C10, amended. For ASCII filenames — where Go's byte counts and the
model agree rune-for-byte — sanitizeFileName is idempotent on every input
whose sanitized result is already free of leading/trailing spaces and dots: a
second pass finds nothing to replace, strip, trim or truncate. Even on ASCII
the 200-byte cap slices the stem after trimming and can expose a trailing
space or dot that breaks this; on non-ASCII names the byte cap can split a
multi-byte rune, whose dangling lead byte a second pass rewrites to U+FFFD —
see the counterexample for both failure shapes. -/
theorem c10_sanitize_idempotent (s r : List Nat) (hascii : ∀ b ∈ s, b < 0x80)
    (hs : sanitizeFileNameBytes s = some r) (htrim : trimEndsBytes r = r) :
    sanitizeFileNameBytes r = some r := by
  have hprops : (∀ b ∈ r, b < 0x80 ∧ unsafeBytes.contains b = false ∧ isCtrlRune b = false)
      ∧ r ≠ [] ∧ r.length ≤ 200 := by
    unfold sanitizeFileNameBytes at hs
    by_cases hs0 : s = []
    · rw [if_pos hs0] at hs
      injection hs with hs
      subst hs
      exact ⟨by decide, by decide, by decide⟩
    · rw [if_neg hs0] at hs
      refine sanitizeCoreBytes_props _ r ?_ hs
      intro b hbm
      exact cleanedBytes_chars hascii hbm
  obtain ⟨hchars, hne, hlen⟩ := hprops
  have hmap : r.map replaceByte = r := by
    conv_rhs => rw [← List.map_id r]
    refine List.map_congr_left ?_
    intro b hbm
    unfold replaceByte
    rw [if_neg]
    · rfl
    · simpa using (hchars b hbm).2.1
  have hrascii : ∀ b ∈ r, b < 0x80 := fun b hbm => (hchars b hbm).1
  have hclean : cleanBytes r = r := by
    rw [cleanBytes_ascii r hrascii]
    exact List.filter_eq_self.mpr (fun b hbm => by simp [(hchars b hbm).2.2])
  rw [sanitizeFileNameBytes, if_neg hne, hmap, hclean, htrim, sanitizeCoreBytes, if_neg hne,
    if_neg (by omega)]

/-- Witness for C10 (amended): the ASCII name photo.jpg sanitizes to itself
and stays fixed under a second pass. -/
theorem c10_sanitize_idempotent_witness :
    sanitizeFileNameBytes [0x70, 0x68, 0x6f, 0x74, 0x6f, 0x2e, 0x6a, 0x70, 0x67]
      = some [0x70, 0x68, 0x6f, 0x74, 0x6f, 0x2e, 0x6a, 0x70, 0x67] :=
  c10_sanitize_idempotent [0x70, 0x68, 0x6f, 0x74, 0x6f, 0x2e, 0x6a, 0x70, 0x67]
    [0x70, 0x68, 0x6f, 0x74, 0x6f, 0x2e, 0x6a, 0x70, 0x67]
    (by decide) (by decide) (by decide)

set_option maxRecDepth 1000000 in
/-- Counterexample to C10 as stated, in two shapes. ASCII: a 201-byte
extensionless name of 199 a-bytes then space then b is truncated to 200
bytes, leaving a trailing space that the second pass trims. Non-ASCII: the
201-byte name a followed by one hundred e-acute runes is cut to 200 bytes,
splitting the last rune; the truncated name has clean edges, yet a second
pass decodes the dangling C3 lead byte as U+FFFD and re-encodes it as three
bytes, so the result changes again. -/
theorem c10_counterexample :
    sanitizeFileNameBytes (List.replicate 199 0x61 ++ [0x20, 0x62])
      = some (List.replicate 199 0x61 ++ [0x20]) ∧
    sanitizeFileNameBytes (List.replicate 199 0x61 ++ [0x20])
      = some (List.replicate 199 0x61) ∧
    (some (List.replicate 199 0x61 ++ [0x20]) : Option (List Nat))
      ≠ some (List.replicate 199 0x61) ∧
    sanitizeFileNameBytes nonAsciiLongName = some nonAsciiTruncated ∧
    trimEndsBytes nonAsciiTruncated = nonAsciiTruncated ∧
    sanitizeFileNameBytes nonAsciiTruncated ≠ some nonAsciiTruncated := by
  refine ⟨by decide, by decide, by decide, by decide, by decide, by decide⟩

/-! ### Claim C8: scan ordering and pagination -/

theorem selectPass_length (cur : MediaFileInfo) :
    ∀ l : List MediaFileInfo, (selectPass cur l).2.length = l.length := by
  intro l
  induction l generalizing cur with
  | nil => rfl
  | cons x xs ih =>
    unfold selectPass
    split
    · simpa using ih x
    · simpa using ih cur

theorem selectPass_perm (cur : MediaFileInfo) :
    ∀ l : List MediaFileInfo, ((selectPass cur l).1 :: (selectPass cur l).2).Perm (cur :: l) := by
  intro l
  induction l generalizing cur with
  | nil => simp [selectPass]
  | cons x xs ih =>
    unfold selectPass
    split
    · show ((selectPass x xs).1 :: cur :: (selectPass x xs).2).Perm (cur :: x :: xs)
      exact (List.Perm.swap cur (selectPass x xs).1 (selectPass x xs).2).trans ((ih x).cons cur)
    · show ((selectPass cur xs).1 :: x :: (selectPass cur xs).2).Perm (cur :: x :: xs)
      exact ((List.Perm.swap x (selectPass cur xs).1 (selectPass cur xs).2).trans
        (((ih cur).cons x))).trans (List.Perm.swap cur x xs)

theorem selectPass_start_le (cur : MediaFileInfo) :
    ∀ l : List MediaFileInfo, effTime cur ≤ effTime (selectPass cur l).1 := by
  intro l
  induction l generalizing cur with
  | nil => exact le_rfl
  | cons x xs ih =>
    unfold selectPass
    split
    · next hlt => exact le_of_lt (lt_of_lt_of_le hlt (by simpa using ih x))
    · simpa using ih cur

theorem selectPass_max (cur : MediaFileInfo) :
    ∀ l : List MediaFileInfo, ∀ y ∈ (selectPass cur l).2,
      effTime y ≤ effTime (selectPass cur l).1 := by
  intro l
  induction l generalizing cur with
  | nil => simp [selectPass]
  | cons x xs ih =>
    unfold selectPass
    split
    · next hlt =>
      intro y hy
      simp only at hy
      rcases List.mem_cons.1 hy with rfl | hy
      · exact le_of_lt (lt_of_lt_of_le hlt (by simpa using selectPass_start_le x xs))
      · simpa using ih x y hy
    · next hge =>
      intro y hy
      simp only at hy
      rcases List.mem_cons.1 hy with rfl | hy
      · exact le_trans (not_lt.1 hge) (by simpa using selectPass_start_le cur xs)
      · simpa using ih cur y hy

/-- The selection sort returns a permutation sorted by descending effective
time. -/
theorem sortFilesAux_spec : ∀ (fuel : Nat) (l : List MediaFileInfo), l.length ≤ fuel →
    (sortFilesAux fuel l).Perm l ∧
    List.Pairwise (fun a b => effTime b ≤ effTime a) (sortFilesAux fuel l) := by
  intro fuel
  induction fuel with
  | zero =>
    intro l hl
    rw [Nat.le_zero] at hl
    rw [List.length_eq_zero] at hl
    subst hl
    exact ⟨List.Perm.refl _, List.Pairwise.nil⟩
  | succ fuel ih =>
    intro l hl
    cases l with
    | nil => exact ⟨List.Perm.refl _, List.Pairwise.nil⟩
    | cons x xs =>
      have hlen : (selectPass x xs).2.length ≤ fuel := by
        rw [selectPass_length]
        simpa using hl
      obtain ⟨hperm, hsort⟩ := ih (selectPass x xs).2 hlen
      constructor
      · show ((selectPass x xs).1 :: sortFilesAux fuel (selectPass x xs).2).Perm (x :: xs)
        exact ((hperm.cons (selectPass x xs).1).trans (selectPass_perm x xs))
      · show List.Pairwise _ ((selectPass x xs).1 :: sortFilesAux fuel (selectPass x xs).2)
        refine List.Pairwise.cons ?_ hsort
        intro y hy
        exact selectPass_max x xs y (hperm.mem_iff.1 hy)

/-- Claim C8, amended. For non-negative limit and offset, ScanFiles sorts the
walked descriptors in descending order of effective date (capture date, else
modification time) — the output is a permutation of the input — and then
returns results[offset : offset+limit] clamped to the length; an offset at or
past the count yields the empty list. (A negative offset or limit would make
the Go slice expression panic, see the counterexample; the HTTP handlers only
pass limit > 0 and offset ≥ 0.) -/
theorem c8_scan_sorted_paginated (files : List MediaFileInfo) (limit offset : Int)
    (hlim : 0 ≤ limit) (hoff : 0 ≤ offset) :
    scanFilesPage files limit offset
      = some (((sortFilesGo files).drop offset.toNat).take limit.toNat) ∧
    (sortFilesGo files).Perm files ∧
    List.Pairwise (fun a b => effTime b ≤ effTime a) (sortFilesGo files) ∧
    ((files.length : Int) ≤ offset → scanFilesPage files limit offset = some []) := by
  obtain ⟨hperm, hsort⟩ := sortFilesAux_spec files.length files le_rfl
  have hlelen : (sortFilesGo files).length = files.length := hperm.length_eq
  have hpage : scanFilesPage files limit offset
      = some (((sortFilesGo files).drop offset.toNat).take limit.toNat) := by
    unfold scanFilesPage paginateGo
    by_cases hbig : offset ≥ ((sortFilesGo files).length : Int)
    · rw [if_pos hbig]
      have : (sortFilesGo files).length ≤ offset.toNat := by omega
      rw [List.drop_eq_nil_of_le this]
      simp
    · have hend : offset ≤ (if offset + limit > ((sortFilesGo files).length : Int)
          then ((sortFilesGo files).length : Int) else offset + limit) := by
        split
        · omega
        · omega
      rw [if_neg hbig, if_pos ⟨hoff, hend⟩]
      congr 1
      by_cases hcl : offset + limit > ((sortFilesGo files).length : Int)
      · rw [if_pos hcl]
        have hlen_drop : ((sortFilesGo files).drop offset.toNat).length
            = (sortFilesGo files).length - offset.toNat := by simp
        rw [List.take_of_length_le, List.take_of_length_le]
        · rw [hlen_drop]; omega
        · rw [hlen_drop]; omega
      · rw [if_neg hcl]
        congr 1
        omega
  refine ⟨hpage, hperm, hsort, ?_⟩
  · intro hpast
    rw [hpage]
    have : (sortFilesGo files).length ≤ offset.toNat := by omega
    rw [List.drop_eq_nil_of_le this]
    simp

/-- Witness for C8 (amended): three files sort to capture dates 9 (by mod
time), 5, 1 and offset 5 past the end yields the empty page. -/
theorem c8_scan_sorted_paginated_witness :
    scanFilesPage scanSample 2 1
      = some (((sortFilesGo scanSample).drop (1 : Int).toNat).take (2 : Int).toNat) ∧
    (sortFilesGo scanSample).Perm scanSample ∧
    List.Pairwise (fun a b => effTime b ≤ effTime a) (sortFilesGo scanSample) ∧
    scanFilesPage scanSample 2 5 = some [] := by
  obtain ⟨h1, h2, h3, _⟩ := c8_scan_sorted_paginated scanSample 2 1 (by decide) (by decide)
  obtain ⟨_, _, _, h4⟩ := c8_scan_sorted_paginated scanSample 2 5 (by decide) (by decide)
  exact ⟨h1, h2, h3, h4 (by decide)⟩

/-- Counterexample to C8 as stated: for offset -1 the Go slice expression
`files[start:end]` panics instead of returning a list, so "for every limit
and offset ... never an error" fails (the pagination model returns `none`
for the panic). -/
theorem c8_counterexample : scanFilesPage [] 10 (-1) = none := by decide

/-! ### Claim C7: conflict-name resolution -/

theorem digitChar_inj : ∀ a, a < 10 → ∀ b, b < 10 → digitChar a = digitChar b → a = b := by
  decide

theorem decimalStr_ne_nil (n : Nat) : decimalStr n ≠ [] := by
  by_cases h : n < 10
  · rw [decimalStr_low h]
    simp
  · rw [decimalStr_high (by omega)]
    simp

theorem decimalStr_inj : ∀ a b, decimalStr a = decimalStr b → a = b := by
  intro a
  induction a using Nat.strong_induction_on with
  | _ a ih =>
    intro b h
    by_cases ha : a < 10
    · by_cases hb : b < 10
      · rw [decimalStr_low ha, decimalStr_low hb] at h
        injection h with h
        exact digitChar_inj a ha b hb h
      · rw [decimalStr_low ha, decimalStr_high (by omega)] at h
        cases hbl : decimalStr (b / 10) with
        | nil => exact absurd hbl (decimalStr_ne_nil (b / 10))
        | cons c cs => rw [hbl] at h; simp at h
    · by_cases hb : b < 10
      · rw [decimalStr_high (by omega), decimalStr_low hb] at h
        cases hal : decimalStr (a / 10) with
        | nil => exact absurd hal (decimalStr_ne_nil (a / 10))
        | cons c cs => rw [hal] at h; simp at h
      · rw [decimalStr_high (show 10 ≤ a by omega), decimalStr_high (show 10 ≤ b by omega)] at h
        have hrev := congrArg List.reverse h
        simp only [List.reverse_append, List.reverse_cons, List.reverse_nil,
          List.nil_append, List.cons_append] at hrev
        injection hrev with h1 h2
        have hmod : a % 10 = b % 10 :=
          digitChar_inj _ (Nat.mod_lt _ (by omega)) _ (Nat.mod_lt _ (by omega)) h1
        have hdiv : a / 10 = b / 10 :=
          ih (a / 10) (Nat.div_lt_self (by omega) (by omega)) (b / 10)
            (List.reverse_injective h2)
        omega

theorem candidateName_inj (stem ext : List Char) {i j : Nat}
    (h : candidateName stem ext i = candidateName stem ext j) : i = j := by
  unfold candidateName at h
  have h1 := List.append_cancel_right h
  have h2 := List.append_cancel_right h1
  have h3 := List.append_cancel_left h2
  exact decimalStr_inj i j h3

/-- The probe loop returns the first free candidate. -/
theorem probeName_first_free (stat : List Char → Bool) (stem ext : List Char) :
    ∀ (fuel counter k : Nat), counter ≤ k → k < counter + fuel →
      (∀ j, counter ≤ j → j < k → stat (candidateName stem ext j) = true) →
      stat (candidateName stem ext k) = false →
      probeName stat stem ext fuel counter = some (candidateName stem ext k) := by
  intro fuel
  induction fuel with
  | zero => intro counter k h1 h2 _ _; omega
  | succ fuel ih =>
    intro counter k h1 h2 hocc hfree
    by_cases hk : k = counter
    · subst hk
      rw [probeName, if_neg (by simp [hfree])]
    · have hoccc : stat (candidateName stem ext counter) = true :=
        hocc counter le_rfl (by omega)
      rw [probeName, if_pos hoccc]
      exact ih (counter + 1) k (by omega) (by omega)
        (fun j hj1 hj2 => hocc j (by omega) hj2) hfree

/-- The probe loop stops as soon as any candidate within the fuel horizon is
free. -/
theorem probeName_terminates (stat : List Char → Bool) (stem ext : List Char) :
    ∀ (fuel counter : Nat),
      (∃ k, counter ≤ k ∧ k < counter + fuel ∧ stat (candidateName stem ext k) = false) →
      ∃ r, probeName stat stem ext fuel counter = some r := by
  intro fuel
  induction fuel with
  | zero => intro counter ⟨k, h1, h2, _⟩; omega
  | succ fuel ih =>
    intro counter ⟨k, h1, h2, hfree⟩
    by_cases hc : stat (candidateName stem ext counter) = true
    · rw [probeName, if_pos hc]
      refine ih (counter + 1) ⟨k, ?_, by omega, hfree⟩
      rcases Nat.eq_or_lt_of_le h1 with rfl | h
      · rw [hc] at hfree; cases hfree
      · omega
    · rw [probeName, if_neg hc]
      exact ⟨_, rfl⟩

theorem contains_eq_true_of_mem {l : List (List Char)} {x : List Char} (h : x ∈ l) :
    l.contains x = true := by
  simpa [List.contains] using List.elem_eq_true_of_mem h

theorem mem_of_contains_eq_true {l : List (List Char)} {x : List Char}
    (h : l.contains x = true) : x ∈ l := by
  simpa [List.contains] using List.mem_of_elem_eq_true (by simpa [List.contains] using h)

/-- In any finite directory some candidate with index at most length+1 is
unused (the candidates are pairwise distinct). -/
theorem exists_unused_name (dir : List (List Char)) (stem ext : List Char) :
    ∃ k, 1 ≤ k ∧ k ≤ dir.length + 1 ∧ dir.contains (candidateName stem ext k) = false := by
  by_contra hno
  push_neg at hno
  have hall : ∀ k, 1 ≤ k → k ≤ dir.length + 1 → candidateName stem ext k ∈ dir := by
    intro k h1 h2
    have := hno k h1 h2
    cases hc : dir.contains (candidateName stem ext k) with
    | false => exact absurd hc this
    | true => exact mem_of_contains_eq_true hc
  have hnd : ((List.range (dir.length + 1)).map
      (fun i => candidateName stem ext (i + 1))).Nodup := by
    refine List.Nodup.map ?_ (List.nodup_range _)
    intro i j hij
    have := candidateName_inj stem ext hij
    omega
  have hsubset : ((List.range (dir.length + 1)).map
      (fun i => candidateName stem ext (i + 1))) ⊆ dir := by
    intro x hx
    obtain ⟨i, hi, rfl⟩ := List.mem_map.1 hx
    rw [List.mem_range] at hi
    exact hall (i + 1) (by omega) (by omega)
  have := (hnd.subperm hsubset).length_le
  simp at this

/-- When every candidate within the fuel horizon is taken, the bounded
getFinalPath loop ends in the timestamp fallback. -/
theorem getFinalPathLoop_exhaust (stat : List Char → Bool) (stem ext : List Char)
    (ts : Nat) : ∀ (fuel counter : Nat),
      (∀ j, counter ≤ j → j < counter + fuel → stat (candidateName stem ext j) = true) →
      getFinalPathLoop stat stem ext ts fuel counter
        = stem ++ ['_'] ++ decimalStr ts ++ ext := by
  intro fuel
  induction fuel with
  | zero => intro counter _; rfl
  | succ fuel ih =>
    intro counter hocc
    rw [getFinalPathLoop, if_pos (hocc counter le_rfl (by omega))]
    exact ih (counter + 1) (fun j h1 h2 => hocc j (by omega) (by omega))

/-- Claim C7, amended. On a name conflict, OrganizeFile (via
handleDuplicates) appends (1), (2), ... before the extension and returns the
first unused candidate, but the search is unbounded: there is no 1000-attempt
cap and no timestamp fallback on this code path (the bounded fallback exists
only in the uncalled getFinalPath variant). The search nevertheless
terminates for every finite state of the target directory, because some
candidate with index at most (number of files)+1 is always unused. -/
theorem c7_conflict_resolution :
    (∀ (stat : List Char → Bool) (fileName : List Char) (fuel : Nat),
      stat fileName = false → handleDuplicates stat fileName fuel = some fileName) ∧
    (∀ (stat : List Char → Bool) (fileName : List Char) (fuel k : Nat),
      stat fileName = true → 1 ≤ k → k < 1 + fuel →
      (∀ j, 1 ≤ j → j < k →
        stat (candidateName (splitExt fileName).1 (splitExt fileName).2 j) = true) →
      stat (candidateName (splitExt fileName).1 (splitExt fileName).2 k) = false →
      handleDuplicates stat fileName fuel
        = some (candidateName (splitExt fileName).1 (splitExt fileName).2 k)) ∧
    (∀ (dir : List (List Char)) (fileName : List Char),
      ∃ r, handleDuplicates (fun s => dir.contains s) fileName (dir.length + 2) = some r) := by
  refine ⟨?_, ?_, ?_⟩
  · intro stat fileName fuel hfree
    rw [handleDuplicates, if_neg (by simp [hfree])]
  · intro stat fileName fuel k hocc h1 h2 hjocc hfree
    rw [handleDuplicates, if_pos hocc]
    exact probeName_first_free stat _ _ fuel 1 k h1 h2 hjocc hfree
  · intro dir fileName
    by_cases hbase : (fun s => dir.contains s) fileName = true
    · rw [handleDuplicates, if_pos hbase]
      refine probeName_terminates _ _ _ (dir.length + 2) 1 ?_
      obtain ⟨k, hk1, hk2, hkfree⟩ :=
        exists_unused_name dir (splitExt fileName).1 (splitExt fileName).2
      exact ⟨k, hk1, by omega, hkfree⟩
    · rw [handleDuplicates, if_neg hbase]
      exact ⟨_, rfl⟩

/-- Witness for C7 (amended): an unused name is kept; with a.jpg and a(1).jpg
present, the resolved name is a(2).jpg. -/
theorem c7_conflict_resolution_witness :
    handleDuplicates statEmpty "b.jpg".data 5 = some "b.jpg".data ∧
    handleDuplicates (fun s => smallDir.contains s) "a.jpg".data 5
      = some (candidateName (splitExt "a.jpg".data).1 (splitExt "a.jpg".data).2 2) :=
  ⟨c7_conflict_resolution.1 statEmpty "b.jpg".data 5 rfl,
   c7_conflict_resolution.2.1 (fun s => smallDir.contains s) "a.jpg".data 5 2
    (by decide) (by decide) (by decide)
    (by
      intro j h1 h2
      have hj : j = 1 := by omega
      subst hj
      decide)
    (by decide)⟩

/-- Counterexample to C7 as stated: with x.e and x(1).e .. x(1000).e all
present, the code path used by OrganizeFile keeps probing and returns
x(1001).e — there is no bound at 1000 attempts and no timestamp fallback —
whereas the bounded getFinalPath described by the claim (dead code) returns
the timestamp-suffixed name x_1714000000.e, which differs. -/
theorem c7_counterexample :
    handleDuplicates (fun s => bigDir.contains s) (conflictStem ++ conflictExt) 2000
      = some (candidateName conflictStem conflictExt 1001) ∧
    candidateName conflictStem conflictExt 1001
      ≠ conflictStem ++ ['_'] ++ decimalStr 1714000000 ++ conflictExt ∧
    getFinalPath (fun s => bigDir.contains s) 1714000000 (conflictStem ++ conflictExt)
      = conflictStem ++ ['_'] ++ decimalStr 1714000000 ++ conflictExt := by
  have hocc : ∀ j, 1 ≤ j → j ≤ 1000 →
      bigDir.contains (candidateName conflictStem conflictExt j) = true := by
    intro j h1 h2
    refine contains_eq_true_of_mem (List.mem_cons_of_mem _ ?_)
    refine List.mem_map.2 ⟨j - 1, List.mem_range.2 (by omega), ?_⟩
    congr 1
    omega
  have hfree : bigDir.contains (candidateName conflictStem conflictExt 1001) = false := by
    cases hc : bigDir.contains (candidateName conflictStem conflictExt 1001) with
    | false => rfl
    | true =>
      exfalso
      have hm := mem_of_contains_eq_true hc
      rcases List.mem_cons.1 hm with hm | hm
      · exact absurd hm (by decide)
      · obtain ⟨i, hi, heq⟩ := List.mem_map.1 hm
        rw [List.mem_range] at hi
        have := candidateName_inj conflictStem conflictExt heq
        omega
  have hsplit : splitExt (conflictStem ++ conflictExt) = (conflictStem, conflictExt) := by
    decide
  have hbase : bigDir.contains (conflictStem ++ conflictExt) = true :=
    contains_eq_true_of_mem (List.mem_cons_self _ _)
  refine ⟨?_, by decide, ?_⟩
  · rw [handleDuplicates, if_pos hbase, hsplit]
    exact probeName_first_free _ conflictStem conflictExt 2000 1 1001
      (by omega) (by omega) (fun j h1 h2 => hocc j h1 (by omega)) hfree
  · rw [getFinalPath, if_pos hbase, hsplit]
    exact getFinalPathLoop_exhaust _ conflictStem conflictExt 1714000000 999 1
      (fun j h1 h2 => hocc j h1 (by omega))

end Sortify
